import Mathlib

/-!
Verification of the `host_rewrite_proxy` rewriting engine
(`src/host_rewrite_proxy/src/host_rewrite_proxy/`): cookie parsing and
domain rewriting (`cookie_rewriter.py`), response header and content
translation (`proxy_response.py`) and request header translation
(`proxy_request.py`).

Python strings are embedded as `List Char`, byte strings as `List Nat`.
Python dictionaries (cookie attributes) are embedded as association lists
with insertion-order semantics: assigning to an existing key updates the
value in place, assigning to a fresh key appends at the end, exactly as a
CPython `dict` behaves.  Falsiness of attribute values mirrors Python
truthiness (`None` and the empty string are falsy, `True` is truthy).
Code that can raise an exception is embedded with `Option` (`none` models
an uncaught exception at that point).
-/

namespace HostRewriteProxy

/-- Python `str` as a list of characters. -/
abbrev PyStr := List Char

/-- Python `bytes` as a list of byte values. -/
abbrev PyBytes := List Nat

/-- Membership of a character, Python `c in s`. -/
def pyContains (s : PyStr) (c : Char) : Bool := s.contains c

/-- Accumulator form of `str.split(sep)` for a single-character separator. -/
def splitOnAux (sep : Char) : PyStr → PyStr → List PyStr
  | [], cur => [cur.reverse]
  | x :: xs, cur =>
    if x = sep then cur.reverse :: splitOnAux sep xs []
    else splitOnAux sep xs (x :: cur)

/-- Python `s.split(sep)` for a single-character separator: splits at every
occurrence, keeps empty pieces, always returns at least one piece. -/
def pySplit (sep : Char) (s : PyStr) : List PyStr := splitOnAux sep s []

/-- Python `s.split(sep, 1)` when `sep` occurs in `s`: the pieces before and
after the first occurrence.  When `sep` does not occur the result is
`(s, [])`; the sources only use the split under a containment guard. -/
def splitFirst (sep : Char) : PyStr → PyStr × PyStr
  | [] => ([], [])
  | x :: xs =>
    if x = sep then ([], xs)
    else
      let r := splitFirst sep xs
      (x :: r.1, r.2)

/-- The whitespace characters recognised by Python `str.strip()` (ASCII
range; the proxy only ever strips around HTTP header tokens). -/
def isPySpace (c : Char) : Bool :=
  c = ' ' || c = '\t' || c = '\n' || c = '\x0d' || c = '\x0b' || c = '\x0c'

/-- Python `s.strip()`: drop whitespace from both ends. -/
def pyStrip (s : PyStr) : PyStr :=
  List.rdropWhile isPySpace (s.dropWhile isPySpace)

/-- Python `s.lower()` (ASCII case mapping, which covers every string the
rewriter compares). -/
def pyLower (s : PyStr) : PyStr := s.map Char.toLower

/-- A cookie attribute value: either a string (`key=value` attribute) or the
Python constant `True` stored for a bare flag such as `Secure`. -/
inductive AttrVal where
  | str (v : PyStr)
  | flag
deriving DecidableEq, Repr

/-- Python truthiness of an attribute value: the empty string is falsy,
every other string and `True` are truthy. -/
def AttrVal.truthy : AttrVal → Bool
  | .str v => !v.isEmpty
  | .flag => true

/-- How an attribute value prints inside an f-string: a string prints as
itself, the Python constant `True` prints as `True`. -/
def AttrVal.render : AttrVal → PyStr
  | .str v => v
  | .flag => "True".toList

/-- The `attrs` dictionary of a parsed cookie, in insertion order. -/
abbrev Attrs := List (PyStr × AttrVal)

/-- CPython `dict` assignment `d[k] = v`: update in place when the key
exists, append otherwise. -/
def dictInsert : Attrs → PyStr → AttrVal → Attrs
  | [], k, v => [(k, v)]
  | (k0, v0) :: rest, k, v =>
    if k0 = k then (k0, v) :: rest else (k0, v0) :: dictInsert rest k v

/-- CPython `dict.get(k)`. -/
def dictGet (a : Attrs) (k : PyStr) : Option AttrVal :=
  (a.find? (fun p => p.1 == k)).map Prod.snd

/-- The dictionary returned by `CookieRewriter.parse_cookie_string` in the
non-empty case (`name`, `value`, `attrs`). -/
structure Cookie where
  name : PyStr
  value : PyStr
  attrs : Attrs
deriving DecidableEq, Repr

instance : Inhabited Cookie := ⟨⟨[], [], []⟩⟩

/-- One iteration of the attribute loop of `parse_cookie_string`. -/
def parseAttrStep (acc : Attrs) (part : PyStr) : Attrs :=
  let p := pyStrip part
  if pyContains p '=' then
    let nv := splitFirst '=' p
    dictInsert acc (pyLower nv.1) (.str (pyStrip nv.2))
  else
    dictInsert acc (pyLower p) .flag

/-- The attribute-parsing loop of `parse_cookie_string` over `parts[1:]`. -/
def parseAttrs (parts : List PyStr) : Attrs :=
  parts.foldl parseAttrStep []

/-- `CookieRewriter.parse_cookie_string`: `none` embeds the empty dictionary
returned for non-cookie-shaped input. -/
def parse_cookie_string (s : PyStr) : Option Cookie :=
  if ¬ pyContains s '=' then none
  else if ¬ pyContains (pyStrip ((pySplit ';' s).headD [])) '=' then none
  else
    some ⟨pyStrip (splitFirst '=' (pyStrip ((pySplit ';' s).headD []))).1,
          pyStrip (splitFirst '=' (pyStrip ((pySplit ';' s).headD []))).2,
          parseAttrs (pySplit ';' s).tail⟩

/-- `CookieRewriter.should_rewrite_domain`.  The argument is whatever
`attrs.get('domain')` produced: `none` for a missing attribute, a string, or
the flag `True`.  Python returns `False` for falsy input, calls `.lower()`
otherwise; on the flag `True` that call raises `AttributeError`, embedded as
`none`. -/
def should_rewrite_domain (target : PyStr) : Option AttrVal → Option Bool
  | none => some false
  | some .flag => none
  | some (.str d) =>
    if d.isEmpty then some false
    else
      let lt := pyLower target
      let dl := pyLower d
      some (dl = lt ∨ dl = '.' :: lt ∨ dl = "www.".toList ++ lt ∨
            dl = ".www.".toList ++ lt : Bool)

/-- `CookieRewriter.rewrite_cookie_domain`: replace a matching domain
attribute with `proxy`, propagating the `AttributeError` case. -/
def rewrite_cookie_domain (target proxy : PyStr) (c : Cookie) : Option Cookie :=
  match should_rewrite_domain target (dictGet c.attrs "domain".toList) with
  | none => none
  | some true => some ⟨c.name, c.value, dictInsert c.attrs "domain".toList (.str proxy)⟩
  | some false => some c

/-- `CookieRewriter.cookie_to_string` on a non-empty cookie dictionary:
`name=value` followed by the seven known attributes in the source's fixed
order; attributes outside the seven are not rendered. -/
def cookie_to_string (c : Cookie) : PyStr :=
  let r0 := c.name ++ '=' :: c.value
  let r1 := match dictGet c.attrs "path".toList with
    | some v => r0 ++ "; Path=".toList ++ v.render
    | none => r0
  let r2 := match dictGet c.attrs "domain".toList with
    | some v => r1 ++ "; Domain=".toList ++ v.render
    | none => r1
  let r3 := match dictGet c.attrs "expires".toList with
    | some v => r2 ++ "; Expires=".toList ++ v.render
    | none => r2
  let r4 := match dictGet c.attrs "max-age".toList with
    | some v => r3 ++ "; Max-Age=".toList ++ v.render
    | none => r3
  let r5 := match dictGet c.attrs "secure".toList with
    | some v => if v.truthy then r4 ++ "; Secure".toList else r4
    | none => r4
  let r6 := match dictGet c.attrs "httponly".toList with
    | some v => if v.truthy then r5 ++ "; HttpOnly".toList else r5
    | none => r5
  match dictGet c.attrs "samesite".toList with
  | some v => r6 ++ "; SameSite=".toList ++ v.render
  | none => r6

/-- Character class `[A-Za-z0-9_-]` of the cookie-name regex. -/
def isTokenChar (c : Char) : Bool := c.isAlpha || c.isDigit || c = '_' || c = '-'

/-- `CookieRewriter._looks_like_cookie_start`: after stripping, the text
matches `^[A-Za-z_][A-Za-z0-9_-]*=` (the regex ends in a literal `=`, which
the repeated class cannot consume, so maximal munch is exact). -/
def looks_like_cookie_start (text : PyStr) : Bool :=
  match pyStrip text with
  | [] => false
  | c :: rest =>
    (c.isAlpha || c = '_') &&
      (match rest.dropWhile isTokenChar with
       | '=' :: _ => true
       | _ => false)

/-- The character scan of `CookieRewriter._parse_set_cookie_header`:
arguments are remaining input, current cookie accumulator, quote state and
collected cookies. -/
def parseSetCookieAux : PyStr → PyStr → Bool → List PyStr → List PyStr
  | [], cur, _, acc =>
    if pyStrip cur = [] then acc else acc ++ [pyStrip cur]
  | ch :: rest, cur, inQuotes, acc =>
    if ch = '"' then
      parseSetCookieAux rest (cur ++ ['"']) (!inQuotes) acc
    else if ch = ',' ∧ ¬ inQuotes then
      if looks_like_cookie_start rest then
        parseSetCookieAux rest [] inQuotes
          (if pyStrip cur = [] then acc else acc ++ [pyStrip cur])
      else
        parseSetCookieAux rest (cur ++ [',']) inQuotes acc
    else
      parseSetCookieAux rest (cur ++ [ch]) inQuotes acc

/-- `CookieRewriter._parse_set_cookie_header`. -/
def parse_set_cookie_header (s : PyStr) : List PyStr :=
  parseSetCookieAux s [] false []

/-- `CookieRewriter._split_cookies` on a string argument (the only case the
proxy exercises: `rewrite_cookies` receives a list of header strings). -/
def split_cookies (s : PyStr) : List PyStr := parse_set_cookie_header s

/-- The body of the inner loop of `CookieRewriter.rewrite_cookies` for one
split-out cookie string: skip unparseable fragments, otherwise rewrite the
domain (which may raise, hence `Option`) and append the non-empty
serialisation. -/
def processOne (target proxy : PyStr) (acc : List PyStr) (cs : PyStr) :
    Option (List PyStr) :=
  match parse_cookie_string cs with
  | none => some acc
  | some d =>
    match rewrite_cookie_domain target proxy d with
    | none => none
    | some d2 =>
      let s := cookie_to_string d2
      some (if s = [] then acc else acc ++ [s])

/-- `CookieRewriter.rewrite_cookies`. -/
def rewrite_cookies (target proxy : PyStr) (headers : List PyStr) :
    Option (List PyStr) :=
  headers.foldlM
    (fun acc h => (split_cookies h).foldlM (processOne target proxy) acc) []

/-- One iteration of the `ProxyRequest.translate` loop. -/
def translateReqStep (target : PyStr) (acc : List (PyStr × PyStr))
    (kv : PyStr × PyStr) : List (PyStr × PyStr) :=
  if pyLower kv.1 = "host".toList then acc ++ [("Host".toList, target)]
  else if pyLower kv.1 = "content-length".toList ∨
      pyLower kv.1 = "transfer-encoding".toList ∨
      pyLower kv.1 = "connection".toList then acc
  else acc ++ [kv]

/-- `ProxyRequest.translate`, embedded as the loop it is: rebuild the header
list, rewriting `Host` and dropping the three hop-by-hop headers. -/
def translate_request (target : PyStr) (headers : List (PyStr × PyStr)) :
    List (PyStr × PyStr) :=
  headers.foldl (translateReqStep target) []

/-! ### urllib.parse, restricted to what `translate_headers` uses

`pyUrlparse` embeds `urllib.parse.urlparse` (CPython 3.11).  Two
simplifications, both justified where the result is consumed:
* `params` is never split off the path; `urlunparse` re-joins
  `path ; params` into exactly the string it split, so keeping the
  parameters inside `path` yields the identical output string;
* a netloc containing a bracket is mapped to `none` (the `ValueError`
  outcome).  CPython raises for mismatched brackets and for matched
  brackets whose content is not a valid IPv6/IPvFuture literal; in the
  one consumer (`Location` translation, which catches the error and keeps
  the header) a valid bracketed host can never equal the bracket-free
  `target_host`, so both behaviours keep the header unchanged.
The claim theorems restrict to ASCII input, where `str.lower`,
`str.isalpha` and `_checknetloc` coincide with this embedding. -/

/-- The C0-control-or-space set stripped from the left of a URL. -/
def isC0OrSpace (c : Char) : Bool := c.toNat ≤ 32

/-- The scheme characters of `urllib.parse` (`A-Za-z0-9+-.`). -/
def isSchemeChar (c : Char) : Bool :=
  c.isAlpha || c.isDigit || c = '+' || c = '-' || c = '.'

/-- Result of `urlparse` with the parameters kept inside `path`. -/
structure UrlParts where
  scheme : PyStr
  netloc : PyStr
  path : PyStr
  query : PyStr
  fragment : PyStr
deriving DecidableEq, Repr

/-- Scheme extraction of `urlsplit`: a leading `alpha scheme_chars* :`
prefix becomes the lower-cased scheme. -/
def splitScheme (s : PyStr) : PyStr × PyStr :=
  if pyContains s ':' then
    let pr := splitFirst ':' s
    match pr.1 with
    | [] => ([], s)
    | c :: _ =>
      if c.isAlpha ∧ pr.1.all isSchemeChar then (pyLower pr.1, pr.2)
      else ([], s)
  else ([], s)

/-- `_splitnetloc` delimiter test. -/
def isNetlocEnd (c : Char) : Bool := c = '/' || c = '?' || c = '#'

/-- `urllib.parse.urlparse` as used by `translate_headers` (see the section
comment); `none` is the `ValueError` outcome. -/
def pyUrlparse (url0 : PyStr) : Option UrlParts :=
  let url1 := url0.dropWhile isC0OrSpace
  let url2 := url1.filter (fun c => ¬ (c = '\t' ∨ c = '\x0d' ∨ c = '\n'))
  let sr := splitScheme url2
  let scheme := sr.1
  match sr.2 with
  | '/' :: '/' :: r =>
    let netloc := r.takeWhile (fun c => ¬ isNetlocEnd c)
    let rest := r.dropWhile (fun c => ¬ isNetlocEnd c)
    if pyContains netloc '[' ∨ pyContains netloc ']' then none
    else
      let fr := if pyContains rest '#' then splitFirst '#' rest else (rest, [])
      let qr := if pyContains fr.1 '?' then splitFirst '?' fr.1 else (fr.1, [])
      some ⟨scheme, netloc, qr.1, qr.2, fr.2⟩
  | other =>
    let fr := if pyContains other '#' then splitFirst '#' other else (other, [])
    let qr := if pyContains fr.1 '?' then splitFirst '?' fr.1 else (fr.1, [])
    some ⟨scheme, [], qr.1, qr.2, fr.2⟩

/-- The `uses_netloc` scheme list of `urllib.parse`. -/
def usesNetloc : List PyStr :=
  ["", "ftp", "http", "gopher", "nntp", "telnet", "imap", "wais", "file",
   "mms", "https", "shttp", "snews", "prospero", "rtsp", "rtsps", "rtspu",
   "rsync", "svn", "svn+ssh", "sftp", "nfs", "git", "git+ssh", "ws",
   "wss"].map String.toList

/-- `urllib.parse.urlunparse` on a five-component value (the `params` slot
is empty because `pyUrlparse` keeps parameters inside the path). -/
def pyUrlunparse (u : UrlParts) : PyStr :=
  let url :=
    if u.netloc ≠ [] ∨
        (u.scheme ≠ [] ∧ u.scheme ∈ usesNetloc ∧ u.path.take 2 ≠ "//".toList)
    then
      let p := if u.path ≠ [] ∧ u.path.take 1 ≠ ['/'] then '/' :: u.path else u.path
      "//".toList ++ u.netloc ++ p
    else u.path
  let url2 := if u.scheme ≠ [] then u.scheme ++ ':' :: url else url
  let url3 := if u.query ≠ [] then url2 ++ '?' :: u.query else url2
  if u.fragment ≠ [] then url3 ++ '#' :: u.fragment else url3

/-- The `Location` branch of `ProxyResponse.translate_headers` for one
header pair: relative targets and foreign hosts pass through, a netloc
equal to the origin host (case-insensitively) is replaced by the proxy
host; a parse error keeps the original pair. -/
def translate_location (origin proxy : PyStr) (kv : PyStr × PyStr) :
    PyStr × PyStr :=
  match pyUrlparse kv.2 with
  | none => kv
  | some u =>
    if u.netloc = [] then kv
    else if pyLower u.netloc = pyLower origin then
      ("Location".toList,
       pyUrlunparse ⟨u.scheme, proxy, u.path, u.query, u.fragment⟩)
    else kv

/-- One iteration of the `ProxyResponse.translate_headers` loop: the list
of header pairs appended for the given input pair (`none` embeds the
exception escaping from `rewrite_cookies`). -/
def translate_header_one (origin proxy : PyStr) (kv : PyStr × PyStr) :
    Option (List (PyStr × PyStr)) :=
  if pyLower kv.1 = "set-cookie".toList then
    (rewrite_cookies origin proxy [kv.2]).map
      (fun cs => cs.map (fun c => ("Set-Cookie".toList, c)))
  else if pyLower kv.1 = "location".toList then
    some [translate_location origin proxy kv]
  else
    some [kv]

/-- `ProxyResponse.translate_headers`: the rebuilt header list. -/
def translate_headers (origin proxy : PyStr)
    (headers : List (PyStr × PyStr)) : Option (List (PyStr × PyStr)) :=
  headers.foldlM
    (fun acc kv => (translate_header_one origin proxy kv).map (acc ++ ·)) []

/-! ### Content rewriting (`ProxyResponse.translate_content`), per chunk -/

/-- UTF-8 encoding of one scalar value (`str.encode` never fails on the
strings the decoder produces, which contain no surrogates). -/
def utf8EncodeChar (c : Char) : PyBytes :=
  let n := c.toNat
  if n < 0x80 then [n]
  else if n < 0x800 then [0xC0 + n / 64, 0x80 + n % 64]
  else if n < 0x10000 then
    [0xE0 + n / 4096, 0x80 + (n / 64) % 64, 0x80 + n % 64]
  else
    [0xF0 + n / 262144, 0x80 + (n / 4096) % 64, 0x80 + (n / 64) % 64,
     0x80 + n % 64]

/-- `str.encode('utf-8')`. -/
def utf8Encode (s : PyStr) : PyBytes :=
  s.foldr (fun c acc => utf8EncodeChar c ++ acc) []

/-- A UTF-8 continuation byte. -/
def isCont (b : Nat) : Bool := 0x80 ≤ b ∧ b ≤ 0xBF

/-- `bytes.decode('utf-8', errors='ignore')`, with explicit fuel so that
the definition evaluates by kernel reduction: every step consumes at least
one byte and one unit of fuel, so fuel equal to the input length never runs
out.  Well-formed sequences decode; ill-formed maximal subparts are
silently skipped (CPython skips the bytes of the longest valid prefix of a
sequence, at least one byte). -/
def utf8DecodeIgnoreF : Nat → PyBytes → PyStr
  | 0, _ => []
  | _ + 1, [] => []
  | f + 1, b1 :: rest =>
    if b1 < 0x80 then Char.ofNat b1 :: utf8DecodeIgnoreF f rest
    else if 0xC2 ≤ b1 ∧ b1 ≤ 0xDF then
      match rest with
      | [] => []
      | b2 :: rest2 =>
        if isCont b2 then
          Char.ofNat ((b1 - 0xC0) * 64 + (b2 - 0x80)) :: utf8DecodeIgnoreF f rest2
        else utf8DecodeIgnoreF f (b2 :: rest2)
    else if 0xE0 ≤ b1 ∧ b1 ≤ 0xEF then
      match rest with
      | [] => []
      | b2 :: rest2 =>
        if (if b1 = 0xE0 then 0xA0 else 0x80) ≤ b2 ∧
            b2 ≤ (if b1 = 0xED then 0x9F else 0xBF) then
          match rest2 with
          | [] => []
          | b3 :: rest3 =>
            if isCont b3 then
              Char.ofNat ((b1 - 0xE0) * 4096 + (b2 - 0x80) * 64 + (b3 - 0x80)) ::
                utf8DecodeIgnoreF f rest3
            else utf8DecodeIgnoreF f (b3 :: rest3)
        else utf8DecodeIgnoreF f (b2 :: rest2)
    else if 0xF0 ≤ b1 ∧ b1 ≤ 0xF4 then
      match rest with
      | [] => []
      | b2 :: rest2 =>
        if (if b1 = 0xF0 then 0x90 else 0x80) ≤ b2 ∧
            b2 ≤ (if b1 = 0xF4 then 0x8F else 0xBF) then
          match rest2 with
          | [] => []
          | b3 :: rest3 =>
            if isCont b3 then
              match rest3 with
              | [] => []
              | b4 :: rest4 =>
                if isCont b4 then
                  Char.ofNat ((b1 - 0xF0) * 262144 + (b2 - 0x80) * 4096 +
                      (b3 - 0x80) * 64 + (b4 - 0x80)) :: utf8DecodeIgnoreF f rest4
                else utf8DecodeIgnoreF f (b4 :: rest4)
            else utf8DecodeIgnoreF f (b3 :: rest3)
        else utf8DecodeIgnoreF f (b2 :: rest2)
    else utf8DecodeIgnoreF f rest

/-- `bytes.decode('utf-8', errors='ignore')`. -/
def utf8DecodeIgnore (bs : PyBytes) : PyStr := utf8DecodeIgnoreF bs.length bs

/-- Case-insensitive literal prefix match: when lower-casing a prefix of
`s` yields `pat` (already lower-cased), return the remainder. -/
def matchCI : PyStr → PyStr → Option PyStr
  | [], s => some s
  | _, [] => none
  | p :: ps, c :: cs => if c.toLower = p then matchCI ps cs else none

/-- Try an ordered list of (lower-cased pattern, replacement) pairs at the
current position, exactly as the regex alternation backtracks. -/
def tryMatches (pats : List (PyStr × PyStr)) (s : PyStr) :
    Option (PyStr × PyStr) :=
  match pats with
  | [] => none
  | (p, r) :: rest =>
    match matchCI p s with
    | some rem => some (r, rem)
    | none => tryMatches rest s

/-- Left-to-right, non-overlapping, case-insensitive substitution, the
semantics of `re.sub` on a literal alternation.  Every pattern used below
is non-empty (it contains `//`), so each replacement consumes at least one
character and fuel equal to the input length suffices. -/
def subScanF (pats : List (PyStr × PyStr)) : Nat → PyStr → PyStr
  | 0, s => s
  | _ + 1, [] => []
  | f + 1, c :: cs =>
    match tryMatches pats (c :: cs) with
    | some (rep, rem) => rep ++ subScanF pats f rem
    | none => c :: subScanF pats f cs

/-- `pattern.sub(replacement, text)` for the literal alternation patterns
of `translate_content`. -/
def subScan (pats : List (PyStr × PyStr)) (s : PyStr) : PyStr :=
  subScanF pats s.length s

/-- `re.sub` of the absolute pattern `https?://origin` (IGNORECASE) with
`https://proxy`; the alternation tries the longer branch first. -/
def subAbsolute (origin proxy : PyStr) (s : PyStr) : PyStr :=
  subScan
    [(pyLower ("https://".toList ++ origin), "https://".toList ++ proxy),
     (pyLower ("http://".toList ++ origin), "https://".toList ++ proxy)] s

/-- `re.sub` of the protocol-relative pattern `//origin` (IGNORECASE) with
`//proxy`. -/
def subRelative (origin proxy : PyStr) (s : PyStr) : PyStr :=
  subScan [(pyLower ("//".toList ++ origin), "//".toList ++ proxy)] s

/-- The per-chunk body of `ProxyResponse.translate_content`: decode with
the ignore policy (which never raises, so the `except` fallback is dead
code for decoding), substitute absolute then protocol-relative URLs, and
re-encode. -/
def translate_chunk (origin proxy : PyStr) (chunk : PyBytes) : PyBytes :=
  utf8Encode (subRelative origin proxy (subAbsolute origin proxy
    (utf8DecodeIgnore chunk)))

/-- Substring test used to state the content-rewrite examples. -/
def hasSubstr (needle : PyStr) : PyStr → Bool
  | [] => needle = []
  | c :: cs => (needle.isPrefixOf (c :: cs)) || hasSubstr needle cs

/-! ### Serialisation viewed as a list of attribute segments

`cookie_to_string` is a chain of conditional appends; for reasoning it is
convenient to view its tail as the concatenation of rendered segments, one
per attribute that the source chooses to emit. -/

/-- One serialised attribute segment: `"; Label=value"` for a valued
attribute, `"; Label"` for an emitted flag. -/
def renderSeg : PyStr × Option PyStr → PyStr
  | (label, some v) => "; ".toList ++ label ++ '=' :: v
  | (label, none) => "; ".toList ++ label

/-- The segment a valued attribute contributes: present when the key is in
the dictionary. -/
def valuedPart (attrs : Attrs) (label key : PyStr) :
    List (PyStr × Option PyStr) :=
  match dictGet attrs key with
  | some v => [(label, some v.render)]
  | none => []

/-- The segment a boolean attribute contributes: present when the key is in
the dictionary with a truthy value. -/
def flagPart (attrs : Attrs) (label key : PyStr) :
    List (PyStr × Option PyStr) :=
  match dictGet attrs key with
  | some v => if v.truthy then [(label, none)] else []
  | none => []

/-- The segments `cookie_to_string` emits after `name=value`, in the
source's fixed order: `Path`, `Domain`, `Expires`, `Max-Age`, `Secure`,
`HttpOnly`, `SameSite`; attributes outside these seven yield no segment. -/
def attrSegsOf (c : Cookie) : List (PyStr × Option PyStr) :=
  valuedPart c.attrs ("Path".toList) ("path".toList) ++
  valuedPart c.attrs ("Domain".toList) ("domain".toList) ++
  valuedPart c.attrs ("Expires".toList) ("expires".toList) ++
  valuedPart c.attrs ("Max-Age".toList) ("max-age".toList) ++
  flagPart c.attrs ("Secure".toList) ("secure".toList) ++
  flagPart c.attrs ("HttpOnly".toList) ("httponly".toList) ++
  valuedPart c.attrs ("SameSite".toList) ("samesite".toList)

/-- The text of a segment as it appears between two `;` separators of the
serialisation (with its leading space). -/
def segBody : PyStr × Option PyStr → PyStr
  | (label, some v) => ' ' :: (label ++ '=' :: v)
  | (label, none) => ' ' :: label

/-- The attribute-dictionary entry that re-parsing a segment produces. -/
def segEntry : PyStr × Option PyStr → PyStr × AttrVal
  | (label, some v) => (pyLower label, .str v)
  | (label, none) => (pyLower label, .flag)

/-- Concatenation of rendered segments. -/
def mkTail (segs : List (PyStr × Option PyStr)) : PyStr :=
  (segs.map renderSeg).flatten

/-- The seven attribute keys `cookie_to_string` knows how to render. -/
def knownAttrKeys : List PyStr :=
  ["path", "domain", "expires", "max-age", "secure", "httponly",
   "samesite"].map String.toList

/-- Well-formedness of an attribute value produced by the parser: string
values contain no `;` and are whitespace-stripped. -/
def WFval : AttrVal → Prop
  | .str s => ';' ∉ s ∧ pyStrip s = s
  | .flag => True

/-- The first `;`-piece of the raw string, whose stripped form carries the
`name=value` pair. -/
def firstPiece (raw : PyStr) : PyStr := (pySplit ';' raw).headD []

/-- The hop-by-hop predicate of `ProxyRequest.translate`. -/
def isHopByHop (name : PyStr) : Prop :=
  pyLower name = "content-length".toList ∨
  pyLower name = "transfer-encoding".toList ∨
  pyLower name = "connection".toList

instance (name : PyStr) : Decidable (isHopByHop name) := by
  rw [isHopByHop]
  infer_instance

/-- A string that is the serialisation of some cookie whose name and value
contain no `;`. -/
def SerializedWF (s : PyStr) : Prop :=
  ∃ d2 : Cookie, ';' ∉ d2.name ∧ ';' ∉ d2.value ∧ s = cookie_to_string d2

/-- Well-formedness of one serialised segment: the label is a non-empty
`;`-free `=`-free stripped string, and a present value is `;`-free and
stripped. -/
def SegWF (sg : PyStr × Option PyStr) : Prop :=
  (';' ∉ sg.1 ∧ '=' ∉ sg.1 ∧ pyStrip sg.1 = sg.1 ∧ sg.1 ≠ []) ∧
  (∀ v, sg.2 = some v → ';' ∉ v ∧ pyStrip v = v)

/-! ## Lemmas about the Python string helpers -/

theorem pyContains_iff {s : PyStr} {c : Char} : pyContains s c = true ↔ c ∈ s := by
  simp [pyContains, List.contains, List.elem_iff]

theorem splitOnAux_ne_nil (sep : Char) (s : PyStr) :
    ∀ cur, splitOnAux sep s cur ≠ [] := by
  induction s with
  | nil => intro cur; simp [splitOnAux]
  | cons x xs ih =>
    intro cur
    by_cases hx : x = sep <;> simp [splitOnAux, hx, ih]

theorem splitOnAux_no_sep {sep : Char} {a : PyStr} (h : sep ∉ a) :
    ∀ cur, splitOnAux sep a cur = [cur.reverse ++ a] := by
  induction a with
  | nil => intro cur; simp [splitOnAux]
  | cons x xs ih =>
    intro cur
    have hx : ¬ x = sep := fun hh => h (hh ▸ List.mem_cons_self x xs)
    have hxs : sep ∉ xs := fun hm => h (List.mem_cons_of_mem _ hm)
    simp [splitOnAux, hx, ih hxs]

theorem splitOnAux_append_sep {sep : Char} {a : PyStr} (h : sep ∉ a) (b : PyStr) :
    ∀ cur, splitOnAux sep (a ++ sep :: b) cur =
      (cur.reverse ++ a) :: splitOnAux sep b [] := by
  induction a with
  | nil => intro cur; simp [splitOnAux]
  | cons x xs ih =>
    intro cur
    have hx : ¬ x = sep := fun hh => h (hh ▸ List.mem_cons_self x xs)
    have hxs : sep ∉ xs := fun hm => h (List.mem_cons_of_mem _ hm)
    simp [splitOnAux, hx, ih hxs]

theorem pySplit_no_sep {sep : Char} {a : PyStr} (h : sep ∉ a) :
    pySplit sep a = [a] := by
  simpa [pySplit] using splitOnAux_no_sep h []

theorem pySplit_append_sep {sep : Char} {a : PyStr} (h : sep ∉ a) (b : PyStr) :
    pySplit sep (a ++ sep :: b) = a :: pySplit sep b := by
  simpa [pySplit] using splitOnAux_append_sep h b []

theorem mem_of_mem_splitOnAux {sep c : Char} {s : PyStr} :
    ∀ {cur p : PyStr}, p ∈ splitOnAux sep s cur → c ∈ p → c ∈ s ∨ c ∈ cur := by
  induction s with
  | nil =>
    intro cur p hp hc
    simp [splitOnAux] at hp
    subst hp
    right
    simpa using hc
  | cons x xs ih =>
    intro cur p hp hc
    by_cases hx : x = sep
    · simp [splitOnAux, hx] at hp
      rcases hp with hp | hp
      · subst hp
        right
        simpa using hc
      · rcases ih hp hc with h1 | h1
        · exact Or.inl (List.mem_cons_of_mem _ h1)
        · simp at h1
    · simp only [splitOnAux, if_neg hx] at hp
      rcases ih hp hc with h1 | h1
      · exact Or.inl (List.mem_cons_of_mem _ h1)
      · simp at h1
        rcases h1 with h1 | h1
        · exact Or.inl (h1 ▸ List.mem_cons_self _ _)
        · exact Or.inr h1

theorem mem_of_mem_pySplit {sep c : Char} {s p : PyStr}
    (hp : p ∈ pySplit sep s) (hc : c ∈ p) : c ∈ s := by
  rcases mem_of_mem_splitOnAux hp hc with h | h
  · exact h
  · simp at h

theorem sep_not_mem_splitOnAux {sep : Char} {s : PyStr} :
    ∀ {cur p : PyStr}, sep ∉ cur → p ∈ splitOnAux sep s cur → sep ∉ p := by
  induction s with
  | nil =>
    intro cur p hcur hp
    simp [splitOnAux] at hp
    subst hp
    simpa using hcur
  | cons x xs ih =>
    intro cur p hcur hp
    by_cases hx : x = sep
    · simp [splitOnAux, hx] at hp
      rcases hp with hp | hp
      · subst hp; simpa using hcur
      · exact ih (by simp) hp
    · simp only [splitOnAux, if_neg hx] at hp
      refine ih ?_ hp
      intro hm
      rcases List.mem_cons.mp hm with hh | hh
      · exact hx hh.symm
      · exact hcur hh

theorem sep_not_mem_pySplit {sep : Char} {s p : PyStr}
    (hp : p ∈ pySplit sep s) : sep ∉ p :=
  sep_not_mem_splitOnAux (by simp) hp

theorem splitFirst_append {sep : Char} {a : PyStr} (h : sep ∉ a) (b : PyStr) :
    splitFirst sep (a ++ sep :: b) = (a, b) := by
  induction a with
  | nil => simp [splitFirst]
  | cons x xs ih =>
    have hx : ¬ x = sep := fun hh => h (hh ▸ List.mem_cons_self x xs)
    have hxs : sep ∉ xs := fun hm => h (List.mem_cons_of_mem _ hm)
    simp [splitFirst, hx, ih hxs]

theorem sep_not_mem_splitFirst_fst (sep : Char) :
    ∀ s : PyStr, sep ∉ (splitFirst sep s).1 := by
  intro s
  induction s with
  | nil => simp [splitFirst]
  | cons x xs ih =>
    by_cases hx : x = sep
    · simp [splitFirst, hx]
    · simp only [splitFirst, if_neg hx]
      intro hm
      rcases List.mem_cons.mp hm with hh | hh
      · exact hx hh.symm
      · exact ih hh

theorem splitFirst_recombine {sep : Char} {s : PyStr} (h : sep ∈ s) :
    (splitFirst sep s).1 ++ sep :: (splitFirst sep s).2 = s := by
  induction s with
  | nil => simp at h
  | cons x xs ih =>
    by_cases hx : x = sep
    · simp [splitFirst, hx]
    · have hxs : sep ∈ xs := by
        rcases List.mem_cons.mp h with hh | hh
        · exact absurd hh.symm hx
        · exact hh
      simp [splitFirst, hx, ih hxs]

theorem mem_splitFirst_fst {sep c : Char} :
    ∀ {s : PyStr}, c ∈ (splitFirst sep s).1 → c ∈ s := by
  intro s
  induction s with
  | nil => simp [splitFirst]
  | cons x xs ih =>
    by_cases hx : x = sep
    · simp [splitFirst, hx]
    · simp only [splitFirst, if_neg hx]
      intro hm
      rcases List.mem_cons.mp hm with hh | hh
      · exact hh ▸ List.mem_cons_self _ _
      · exact List.mem_cons_of_mem _ (ih hh)

theorem mem_splitFirst_snd {sep c : Char} :
    ∀ {s : PyStr}, c ∈ (splitFirst sep s).2 → c ∈ s := by
  intro s
  induction s with
  | nil => simp [splitFirst]
  | cons x xs ih =>
    by_cases hx : x = sep
    · simp [splitFirst, hx]
      exact fun h => Or.inr h
    · simp only [splitFirst, if_neg hx]
      exact fun h => List.mem_cons_of_mem _ (ih h)

theorem mem_dropWhile_of_mem {p : Char → Bool} {c : Char} (hc : p c = false) :
    ∀ {l : PyStr}, c ∈ l → c ∈ l.dropWhile p := by
  intro l
  induction l with
  | nil => simp
  | cons x xs ih =>
    intro hm
    by_cases hx : p x
    · have hcx : c ≠ x := fun hh => by rw [hh] at hc; rw [hc] at hx; exact Bool.noConfusion hx
      have : c ∈ xs := by
        rcases List.mem_cons.mp hm with hh | hh
        · exact absurd hh hcx
        · exact hh
      simpa [List.dropWhile_cons, hx] using ih this
    · simpa [List.dropWhile_cons, hx] using hm

theorem mem_pyStrip_of_mem {c : Char} {s : PyStr} (hc : isPySpace c = false)
    (h : c ∈ s) : c ∈ pyStrip s := by
  have h1 : c ∈ s.dropWhile isPySpace := mem_dropWhile_of_mem hc h
  have h2 : c ∈ (s.dropWhile isPySpace).reverse := by simpa using h1
  have h3 := mem_dropWhile_of_mem (p := isPySpace) hc h2
  simpa [pyStrip, List.rdropWhile] using h3

theorem mem_of_mem_pyStrip {c : Char} {s : PyStr} (h : c ∈ pyStrip s) : c ∈ s := by
  have h1 : c ∈ s.dropWhile isPySpace := by
    have hp := List.rdropWhile_prefix isPySpace (s.dropWhile isPySpace)
    exact hp.sublist.mem h
  exact (List.dropWhile_suffix isPySpace).sublist.mem h1

theorem pyStrip_eq_self {s : PyStr}
    (h1 : ∀ x, s.head? = some x → isPySpace x = false)
    (h2 : ∀ x, s.getLast? = some x → isPySpace x = false) :
    pyStrip s = s := by
  have hd : s.dropWhile isPySpace = s := by
    cases s with
    | nil => rfl
    | cons a l =>
      have := h1 a rfl
      simp [List.dropWhile_cons, this]
  rw [pyStrip, hd, List.rdropWhile_eq_self_iff]
  intro hl
  have := h2 (s.getLast hl) (List.getLast?_eq_getLast s hl)
  simp [this]

theorem pyStrip_cons_space {c : Char} {s : PyStr} (h : isPySpace c = true) :
    pyStrip (c :: s) = pyStrip s := by
  simp [pyStrip, List.dropWhile_cons, h]

theorem dropWhile_head?_not {p : Char → Bool} {l : PyStr} {x : Char}
    (h : (l.dropWhile p).head? = some x) : p x = false := by
  have hne : l.dropWhile p ≠ [] := by
    intro hh
    rw [hh] at h
    simp at h
  have h1 := List.head_dropWhile_not p l hne
  have h2 : (l.dropWhile p).head hne = x := by
    rw [List.head?_eq_head hne] at h
    exact Option.some.inj h
  rw [h2] at h1
  simpa using h1

theorem pyStrip_head?_not {s : PyStr} {x : Char}
    (h : (pyStrip s).head? = some x) : isPySpace x = false := by
  have hh : pyStrip s = List.rdropWhile isPySpace (s.dropWhile isPySpace) := rfl
  rw [hh] at h
  obtain ⟨t, ht⟩ := List.rdropWhile_prefix isPySpace (s.dropWhile isPySpace)
  have h2 : (s.dropWhile isPySpace).head? = some x := by
    rw [← ht]
    cases hps : List.rdropWhile isPySpace (s.dropWhile isPySpace) with
    | nil =>
      rw [hps] at h
      simp at h
    | cons a l =>
      rw [hps] at h
      simpa using h
  exact dropWhile_head?_not h2

theorem pyStrip_getLast?_not {s : PyStr} {x : Char}
    (h : (pyStrip s).getLast? = some x) : isPySpace x = false := by
  have hh : pyStrip s = List.rdropWhile isPySpace (s.dropWhile isPySpace) := rfl
  rw [hh] at h
  have hne : List.rdropWhile isPySpace (s.dropWhile isPySpace) ≠ [] := by
    intro h0
    rw [h0] at h
    simp at h
  have h1 := List.rdropWhile_last_not isPySpace (s.dropWhile isPySpace) hne
  have h2 : (List.rdropWhile isPySpace (s.dropWhile isPySpace)).getLast hne = x := by
    rw [List.getLast?_eq_getLast _ hne] at h
    exact Option.some.inj h
  rw [h2] at h1
  simpa using h1

theorem pyStrip_idem (s : PyStr) : pyStrip (pyStrip s) = pyStrip s :=
  pyStrip_eq_self (fun _ hx => pyStrip_head?_not hx)
    (fun _ hx => pyStrip_getLast?_not hx)

theorem mem_dictInsert {k : PyStr} {v : AttrVal} :
    ∀ {a : Attrs} {x}, x ∈ dictInsert a k v → x ∈ a ∨ x = (k, v) := by
  intro a
  induction a with
  | nil =>
    intro x hx
    simp [dictInsert] at hx
    exact Or.inr hx
  | cons p rest ih =>
    obtain ⟨k0, v0⟩ := p
    intro x hx
    by_cases hk : k0 = k
    · rw [show dictInsert ((k0, v0) :: rest) k v = (k0, v) :: rest by
        simp [dictInsert, hk]] at hx
      rcases List.mem_cons.mp hx with hh | hh
      · exact Or.inr (by rw [hh, hk])
      · exact Or.inl (List.mem_cons_of_mem _ hh)
    · rw [show dictInsert ((k0, v0) :: rest) k v = (k0, v0) :: dictInsert rest k v by
        simp [dictInsert, hk]] at hx
      rcases List.mem_cons.mp hx with hh | hh
      · exact Or.inl (hh ▸ List.mem_cons_self _ _)
      · rcases ih hh with h1 | h1
        · exact Or.inl (List.mem_cons_of_mem _ h1)
        · exact Or.inr h1

theorem parseAttrStep_wf {acc : Attrs} {part : PyStr}
    (hacc : ∀ x ∈ acc, WFval x.2) (hpart : ';' ∉ part) :
    ∀ x ∈ parseAttrStep acc part, WFval x.2 := by
  intro x hx
  have hmem : ∀ {key val}, x ∈ dictInsert acc key val → WFval val → WFval x.2 := by
    intro key val h hval
    rcases mem_dictInsert h with h1 | h1
    · exact hacc x h1
    · rw [h1]
      exact hval
  by_cases hc : pyContains (pyStrip part) '='
  · rw [show parseAttrStep acc part =
        dictInsert acc (pyLower (splitFirst '=' (pyStrip part)).1)
          (.str (pyStrip (splitFirst '=' (pyStrip part)).2)) by
      simp [parseAttrStep, hc]] at hx
    refine hmem hx ?_
    constructor
    · intro hsemi
      exact hpart (mem_of_mem_pyStrip
        (mem_splitFirst_snd (mem_of_mem_pyStrip hsemi)))
    · exact pyStrip_idem _
  · rw [show parseAttrStep acc part = dictInsert acc (pyLower (pyStrip part)) .flag by
      simp [parseAttrStep, hc]] at hx
    exact hmem hx trivial

theorem foldl_parseAttrStep_wf :
    ∀ {parts : List PyStr} {acc : Attrs}, (∀ x ∈ acc, WFval x.2) →
      (∀ p ∈ parts, ';' ∉ p) → ∀ x ∈ parts.foldl parseAttrStep acc, WFval x.2 := by
  intro parts
  induction parts with
  | nil =>
    intro acc hacc _ x hx
    exact hacc x hx
  | cons p rest ih =>
    intro acc hacc hparts x hx
    rw [List.foldl_cons] at hx
    exact ih (parseAttrStep_wf hacc (hparts p (List.mem_cons_self _ _)))
      (fun q hq => hparts q (List.mem_cons_of_mem _ hq)) x hx

theorem parseAttrs_wf {parts : List PyStr} (hparts : ∀ p ∈ parts, ';' ∉ p) :
    ∀ x ∈ parseAttrs parts, WFval x.2 :=
  foldl_parseAttrStep_wf (by simp) hparts

theorem pySplit_headD_mem (sep : Char) (s : PyStr) :
    (pySplit sep s).headD [] ∈ pySplit sep s := by
  cases h : pySplit sep s with
  | nil => exact absurd h (splitOnAux_ne_nil sep s [])
  | cons a l => simp

theorem mem_firstPiece {raw : PyStr} {c : Char} (h : c ∈ firstPiece raw) :
    c ∈ raw :=
  mem_of_mem_pySplit (pySplit_headD_mem ';' raw) h

/-- Characterisation of a successful parse. -/
theorem parse_eq_some {raw : PyStr} {d : Cookie} :
    parse_cookie_string raw = some d ↔
      ('=' ∈ pyStrip (firstPiece raw) ∧
       d = ⟨pyStrip (splitFirst '=' (pyStrip (firstPiece raw))).1,
            pyStrip (splitFirst '=' (pyStrip (firstPiece raw))).2,
            parseAttrs (pySplit ';' raw).tail⟩) := by
  have hfp : (pySplit ';' raw).headD [] = firstPiece raw := rfl
  rw [parse_cookie_string, hfp]
  by_cases h2 : '=' ∈ pyStrip (firstPiece raw)
  · have h1 : pyContains raw '=' = true :=
      pyContains_iff.mpr (mem_firstPiece (mem_of_mem_pyStrip h2))
    have h2b : pyContains (pyStrip (firstPiece raw)) '=' = true :=
      pyContains_iff.mpr h2
    rw [if_neg (fun hc => hc h1), if_neg (fun hc => hc h2b)]
    constructor
    · intro h
      exact ⟨h2, (Option.some.inj h).symm⟩
    · intro h
      rw [h.2]
  · constructor
    · intro h
      exfalso
      by_cases h1 : pyContains raw '=' = true
      · rw [if_neg (fun hc => hc h1),
            if_pos (fun hcc => h2 (pyContains_iff.mp hcc))] at h
        exact Option.noConfusion h
      · rw [if_pos h1] at h
        exact Option.noConfusion h
    · intro h
      exact absurd h.1 h2

/-- Characterisation of a rejected parse. -/
theorem parse_eq_none {raw : PyStr} :
    parse_cookie_string raw = none ↔ '=' ∉ pyStrip (firstPiece raw) := by
  constructor
  · intro h hmem
    rcases hd : parse_cookie_string raw with _ | d
    · have := @parse_eq_some raw
        ⟨pyStrip (splitFirst '=' (pyStrip (firstPiece raw))).1,
         pyStrip (splitFirst '=' (pyStrip (firstPiece raw))).2,
         parseAttrs (pySplit ';' raw).tail⟩
      rw [hd] at this
      exact Option.noConfusion (this.mpr ⟨hmem, rfl⟩)
    · rw [hd] at h
      exact Option.noConfusion h
  · intro hmem
    rcases hd : parse_cookie_string raw with _ | d
    · rfl
    · exact absurd (parse_eq_some.mp hd).1 hmem

/-- Well-formedness of every parsed cookie: the name contains no `;` and no
`=` and is stripped, the value contains no `;` and is stripped, and every
attribute value satisfies `WFval`. -/
theorem parse_wf {raw : PyStr} {d : Cookie}
    (h : parse_cookie_string raw = some d) :
    (';' ∉ d.name ∧ '=' ∉ d.name ∧ pyStrip d.name = d.name) ∧
    (';' ∉ d.value ∧ pyStrip d.value = d.value) ∧
    (∀ x ∈ d.attrs, WFval x.2) := by
  obtain ⟨-, hd⟩ := parse_eq_some.mp h
  have hseg : ';' ∉ firstPiece raw := sep_not_mem_pySplit (pySplit_headD_mem ';' raw)
  subst hd
  refine ⟨⟨?_, ?_, pyStrip_idem _⟩, ⟨?_, pyStrip_idem _⟩, ?_⟩
  · intro hm
    exact hseg (mem_of_mem_pyStrip (mem_splitFirst_fst (mem_of_mem_pyStrip hm)))
  · intro hm
    exact sep_not_mem_splitFirst_fst '=' _ (mem_of_mem_pyStrip hm)
  · intro hm
    exact hseg (mem_of_mem_pyStrip (mem_splitFirst_snd (mem_of_mem_pyStrip hm)))
  · refine parseAttrs_wf ?_
    intro p hp
    exact sep_not_mem_pySplit (List.mem_of_mem_tail hp)

/-! ## Claim C10 -/

/-- C10: `parse_cookie_string` returns the empty (null) result precisely for
inputs whose first `;`-separated segment contains no `=` — even when `=`
occurs later in the string — so a cookie is accepted only when its
`name=value` pair comes before the first `;`; in particular
`"flag; path=/"` parses to null although it contains `=`. -/
theorem c10_parse_requires_eq_before_first_semicolon :
    (∀ s : PyStr, parse_cookie_string s = none ↔ '=' ∉ firstPiece s) ∧
    parse_cookie_string ("flag; path=/".toList) = none := by
  constructor
  · intro s
    rw [parse_eq_none]
    constructor
    · intro h hm
      exact h (mem_pyStrip_of_mem (by decide) hm)
    · intro h hm
      exact h (mem_of_mem_pyStrip hm)
  · decide

/-! ## Claim C2 -/

/-- C2 counterexample: the claim asserts that strict subdomains of
`target_host` and its parent domains are rewritten; the code returns
`False` for all of them.  With target `a.b.example.com` the parent domains
`b.example.com` and `example.com` are not rewritten, and with target
`example.com` the strict subdomain `sub.example.com` is not rewritten. -/
theorem c2_counterexample_no_subdomain_or_parent_rewrite :
    should_rewrite_domain ("a.b.example.com".toList)
        (some (.str ("b.example.com".toList))) = some false ∧
    should_rewrite_domain ("a.b.example.com".toList)
        (some (.str ("example.com".toList))) = some false ∧
    should_rewrite_domain ("example.com".toList)
        (some (.str ("sub.example.com".toList))) = some false := by
  refine ⟨by decide, by decide, by decide⟩

/-- C2 (amended): `should_rewrite_domain` returns true for exactly the four
exact case-insensitive variations `target_host`, `.target_host`,
`www.target_host`, `.www.target_host`; subdomain and parent domains are
not rewritten: with `target_host = "a.b.example.com"` the domains
`b.example.com`, `example.com` and `com` all yield false. -/
theorem c2_amended_exact_variations_only :
    (∀ target d : PyStr, d ≠ [] →
      (should_rewrite_domain target (some (.str d)) = some true ↔
        (pyLower d = pyLower target ∨ pyLower d = '.' :: pyLower target ∨
         pyLower d = "www.".toList ++ pyLower target ∨
         pyLower d = ".www.".toList ++ pyLower target))) ∧
    should_rewrite_domain ("a.b.example.com".toList)
        (some (.str ("b.example.com".toList))) ≠ some true ∧
    should_rewrite_domain ("a.b.example.com".toList)
        (some (.str ("example.com".toList))) ≠ some true ∧
    should_rewrite_domain ("a.b.example.com".toList)
        (some (.str ("com".toList))) ≠ some true := by
  refine ⟨?_, by decide, by decide, by decide⟩
  intro target d hd
  have hne : ¬ d.isEmpty = true := by simpa [List.isEmpty_iff] using hd
  simp only [should_rewrite_domain, if_neg hne, Option.some.injEq,
    decide_eq_true_eq]

/-- Witness for the amended C2: `.WWW.Example.COM` matches the fourth
variation of target `example.com`. -/
theorem c2_amended_witness :
    should_rewrite_domain ("example.com".toList)
        (some (.str (".WWW.Example.COM".toList))) = some true :=
  (c2_amended_exact_variations_only.1 ("example.com".toList)
    (".WWW.Example.COM".toList) (by decide)).mpr (by decide)

/-! ## Claim C3 -/

/-- C3: with `target_host = example.com` and `proxy_host = proxy.app`,
rewriting a parsed cookie replaces a Domain attribute equal
case-insensitively to `example.com`, `.example.com`, `www.example.com` or
`.www.example.com` with `proxy.app`; a cookie whose Domain is `other.com`
is unchanged; and a cookie with no Domain attribute is unchanged, with no
Domain attribute added. -/
theorem c3_rewrite_domain_example_config :
    ∀ c : Cookie,
      (∀ d : PyStr,
        dictGet c.attrs ("domain".toList) = some (.str d) →
        (pyLower d = "example.com".toList ∨ pyLower d = ".example.com".toList ∨
         pyLower d = "www.example.com".toList ∨
         pyLower d = ".www.example.com".toList) →
        rewrite_cookie_domain ("example.com".toList) ("proxy.app".toList) c =
          some ⟨c.name, c.value,
                dictInsert c.attrs ("domain".toList)
                  (.str ("proxy.app".toList))⟩) ∧
      (dictGet c.attrs ("domain".toList) = some (.str ("other.com".toList)) →
        rewrite_cookie_domain ("example.com".toList) ("proxy.app".toList) c =
          some c) ∧
      (dictGet c.attrs ("domain".toList) = none →
        rewrite_cookie_domain ("example.com".toList) ("proxy.app".toList) c =
          some c) := by
  intro c
  refine ⟨?_, ?_, ?_⟩
  · intro d hd hvar
    have hne : ¬ d.isEmpty = true := by
      intro hemp
      rw [List.isEmpty_iff] at hemp
      subst hemp
      rcases hvar with h | h | h | h <;> exact absurd h (by decide)
    have hs : should_rewrite_domain ("example.com".toList) (some (.str d)) =
        some true := by
      simp only [should_rewrite_domain, if_neg hne, Option.some.injEq,
        decide_eq_true_eq]
      rcases hvar with h | h | h | h
      · exact Or.inl (by rw [h]; decide)
      · exact Or.inr (Or.inl (by rw [h]; decide))
      · exact Or.inr (Or.inr (Or.inl (by rw [h]; decide)))
      · exact Or.inr (Or.inr (Or.inr (by rw [h]; decide)))
    rw [rewrite_cookie_domain, hd, hs]
  · intro hd
    have hs : should_rewrite_domain ("example.com".toList)
        (some (.str ("other.com".toList))) = some false := by decide
    rw [rewrite_cookie_domain, hd, hs]
  · intro hd
    rw [rewrite_cookie_domain, hd]
    rfl

/-- Witness for C3 at a concrete cookie for each of the three cases. -/
theorem c3_witness :
    rewrite_cookie_domain ("example.com".toList) ("proxy.app".toList)
        ⟨"session".toList, "abc".toList,
         [("domain".toList, .str (".EXAMPLE.com".toList))]⟩ =
      some ⟨"session".toList, "abc".toList,
            [("domain".toList, .str ("proxy.app".toList))]⟩ ∧
    rewrite_cookie_domain ("example.com".toList) ("proxy.app".toList)
        ⟨"a".toList, "b".toList,
         [("domain".toList, .str ("other.com".toList))]⟩ =
      some ⟨"a".toList, "b".toList,
            [("domain".toList, .str ("other.com".toList))]⟩ ∧
    rewrite_cookie_domain ("example.com".toList) ("proxy.app".toList)
        ⟨"a".toList, "b".toList, [("path".toList, .str ("/".toList))]⟩ =
      some ⟨"a".toList, "b".toList, [("path".toList, .str ("/".toList))]⟩ := by
  refine ⟨?_, ?_, ?_⟩
  · have h := (c3_rewrite_domain_example_config
      ⟨"session".toList, "abc".toList,
       [("domain".toList, .str (".EXAMPLE.com".toList))]⟩).1
      (".EXAMPLE.com".toList) (by decide) (Or.inr (Or.inl (by decide)))
    rw [h]
    decide
  · exact (c3_rewrite_domain_example_config
      ⟨"a".toList, "b".toList,
       [("domain".toList, .str ("other.com".toList))]⟩).2.1 (by decide)
  · exact (c3_rewrite_domain_example_config
      ⟨"a".toList, "b".toList, [("path".toList, .str ("/".toList))]⟩).2.2
      (by decide)

/-! ## Serialisation structure -/

theorem valuedPart_congr {a a2 : Attrs} {key : PyStr}
    (h : dictGet a key = dictGet a2 key) {label : PyStr} :
    valuedPart a label key = valuedPart a2 label key := by
  rw [valuedPart, valuedPart, h]

theorem flagPart_congr {a a2 : Attrs} {key : PyStr}
    (h : dictGet a key = dictGet a2 key) {label : PyStr} :
    flagPart a label key = flagPart a2 label key := by
  rw [flagPart, flagPart, h]

set_option maxHeartbeats 2000000 in
/-- `cookie_to_string` equals `name=value` followed by the rendered
attribute segments in the fixed order. -/
theorem cookie_to_string_eq_render (c : Cookie) :
    cookie_to_string c = (c.name ++ '=' :: c.value) ++ mkTail (attrSegsOf c) := by
  rcases h1 : dictGet c.attrs "path".toList with _ | v1 <;>
  rcases h2 : dictGet c.attrs "domain".toList with _ | v2 <;>
  rcases h3 : dictGet c.attrs "expires".toList with _ | v3 <;>
  rcases h4 : dictGet c.attrs "max-age".toList with _ | v4 <;>
  rcases h5 : dictGet c.attrs "secure".toList with _ | v5 <;>
  rcases h6 : dictGet c.attrs "httponly".toList with _ | v6 <;>
  rcases h7 : dictGet c.attrs "samesite".toList with _ | v7 <;>
  simp only [cookie_to_string, attrSegsOf, valuedPart, flagPart,
    h1, h2, h3, h4, h5, h6, h7,
    mkTail, renderSeg, List.map_nil, List.map_cons, List.map_append,
    List.flatten_nil, List.flatten_cons, List.flatten_append,
    List.append_nil, List.nil_append, List.append_assoc] <;>
  (try split_ifs) <;>
  simp [renderSeg, List.append_assoc]

theorem cookie_to_string_ne_nil (c : Cookie) : cookie_to_string c ≠ [] := by
  rw [cookie_to_string_eq_render]
  simp

/-! ## Claim C7 -/

/-- C7 counterexample: the attribute `foo=bar` survives parsing, yet
serialisation emits only `name=value` — the remaining attribute is dropped
instead of being rendered in a stable order. -/
theorem c7_counterexample_unknown_attribute_dropped :
    parse_cookie_string ("a=b; foo=bar".toList) =
      some ⟨"a".toList, "b".toList, [("foo".toList, .str ("bar".toList))]⟩ ∧
    cookie_to_string
        ⟨"a".toList, "b".toList, [("foo".toList, .str ("bar".toList))]⟩ =
      "a=b".toList := by
  refine ⟨by decide, by decide⟩

/-- C7 (amended): serialisation renders `name=value` followed by the
attributes in the fixed order `Path`, `Domain`, `Expires`, `Max-Age`,
`Secure`, `HttpOnly`, `SameSite` (boolean flags as bare tokens, valued
attributes as `Name=Value`, per `attrSegsOf`/`renderSeg`); attributes
outside these seven are dropped, not rendered. -/
theorem c7_amended_fixed_order_rest_dropped :
    (∀ c : Cookie, cookie_to_string c =
        (c.name ++ '=' :: c.value) ++ mkTail (attrSegsOf c)) ∧
    (∀ (c : Cookie) (k : PyStr) (v : AttrVal), k ∉ knownAttrKeys →
        cookie_to_string ⟨c.name, c.value, c.attrs ++ [(k, v)]⟩ =
          cookie_to_string c) := by
  refine ⟨cookie_to_string_eq_render, ?_⟩
  intro c k v hk
  have hget : ∀ key ∈ knownAttrKeys,
      dictGet (c.attrs ++ [(k, v)]) key = dictGet c.attrs key := by
    intro key hkey
    have hne : ¬ (k == key) = true := by
      intro hx
      exact hk (by rwa [show k = key from by simpa using hx])
    have hkne : ¬ k = key := fun hh => hne (by simp [hh])
    rw [dictGet, dictGet, List.find?_append]
    rcases hf : c.attrs.find? (fun p => p.1 == key) with _ | x
    · simp [hf, hkne]
    · simp [hf]
  rw [cookie_to_string_eq_render, cookie_to_string_eq_render]
  have hsegs : attrSegsOf ⟨c.name, c.value, c.attrs ++ [(k, v)]⟩ =
      attrSegsOf c := by
    rw [attrSegsOf, attrSegsOf]
    rw [show (⟨c.name, c.value, c.attrs ++ [(k, v)]⟩ : Cookie).attrs =
        c.attrs ++ [(k, v)] from rfl]
    rw [valuedPart_congr (hget ("path".toList) (by decide)),
        valuedPart_congr (hget ("domain".toList) (by decide)),
        valuedPart_congr (hget ("expires".toList) (by decide)),
        valuedPart_congr (hget ("max-age".toList) (by decide)),
        flagPart_congr (hget ("secure".toList) (by decide)),
        flagPart_congr (hget ("httponly".toList) (by decide)),
        valuedPart_congr (hget ("samesite".toList) (by decide))]
  rw [hsegs]

/-- Witness for the amended C7: a `foo=bar` attribute does not change the
serialisation. -/
theorem c7_amended_witness :
    cookie_to_string
        ⟨"a".toList, "b".toList, [("foo".toList, AttrVal.str ("bar".toList))]⟩ =
      cookie_to_string ⟨"a".toList, "b".toList, []⟩ := by
  have h := c7_amended_fixed_order_rest_dropped.2
    ⟨"a".toList, "b".toList, []⟩ ("foo".toList) (AttrVal.str ("bar".toList))
    (by decide)
  simpa using h

/-! ## Claim C6 -/

theorem translateReqStep_append (target : PyStr) (acc : List (PyStr × PyStr))
    (kv : PyStr × PyStr) :
    translateReqStep target acc kv = acc ++ translateReqStep target [] kv := by
  rw [translateReqStep, translateReqStep]
  split_ifs <;> simp

theorem translate_request_foldl (target : PyStr) :
    ∀ (headers : List (PyStr × PyStr)) (acc : List (PyStr × PyStr)),
      headers.foldl (translateReqStep target) acc =
        acc ++ headers.foldl (translateReqStep target) [] := by
  intro headers
  induction headers with
  | nil => intro acc; simp
  | cons kv hs ih =>
    intro acc
    rw [List.foldl_cons, List.foldl_cons, ih (translateReqStep target acc kv),
        ih (translateReqStep target [] kv), translateReqStep_append,
        List.append_assoc]

/-- C6: `ProxyRequest.translate` maps each header pair in order: a `Host`
header (case-insensitive) becomes `("Host", target_host)`, the hop-by-hop
headers `Content-Length`, `Transfer-Encoding` and `Connection`
(case-insensitive) are removed, and every other pair — name, casing, value
and relative order, `Cookie` included — is kept exactly as received; and no
hop-by-hop header name survives in the output. -/
theorem c6_translate_request_headers (target : PyStr)
    (headers : List (PyStr × PyStr)) :
    translate_request target headers =
      headers.filterMap (fun kv =>
        if pyLower kv.1 = "host".toList then some ("Host".toList, target)
        else if isHopByHop kv.1 then none
        else some kv) ∧
    (∀ kv ∈ translate_request target headers, ¬ isHopByHop kv.1) := by
  constructor
  · induction headers with
    | nil => rfl
    | cons kv hs ih =>
      rw [translate_request, List.foldl_cons,
          translate_request_foldl target hs (translateReqStep target [] kv)]
      rw [translate_request] at ih
      rw [List.filterMap_cons, ih, translateReqStep]
      simp only [isHopByHop]
      split_ifs with h1 h2 <;> simp
  · suffices h : ∀ (hs : List (PyStr × PyStr)) (kv : PyStr × PyStr),
        kv ∈ hs.foldl (translateReqStep target) [] → ¬ isHopByHop kv.1 by
      intro kv hkv
      rw [translate_request] at hkv
      exact h headers kv hkv
    intro hs
    induction hs with
    | nil =>
      intro kv hkv
      simp at hkv
    | cons kv0 rest ih =>
      intro kv hkv
      rw [List.foldl_cons,
          translate_request_foldl target rest (translateReqStep target [] kv0)]
          at hkv
      rcases List.mem_append.mp hkv with hm | hm
      · rw [translateReqStep] at hm
        split_ifs at hm with h1 h2
        · simp only [List.nil_append, List.mem_singleton] at hm
          rw [hm]
          exact (by decide : ¬ isHopByHop ("Host".toList))
        · simp at hm
        · simp only [List.nil_append, List.mem_singleton] at hm
          rw [hm]
          exact fun hc => h2 hc
      · exact ih kv hm

/-- Witness for C6 at a concrete header list exercising all three
behaviours. -/
theorem c6_witness :
    translate_request ("example.com".toList)
        [("HOST".toList, "proxy.app".toList),
         ("Cookie".toList, "a=b".toList),
         ("Content-Length".toList, "3".toList),
         ("X-Custom".toList, "z".toList)] =
      [("Host".toList, "example.com".toList),
       ("Cookie".toList, "a=b".toList),
       ("X-Custom".toList, "z".toList)] ∧
    ¬ isHopByHop ("Cookie".toList) := by
  constructor
  · rw [(c6_translate_request_headers ("example.com".toList)
      [("HOST".toList, "proxy.app".toList),
       ("Cookie".toList, "a=b".toList),
       ("Content-Length".toList, "3".toList),
       ("X-Custom".toList, "z".toList)]).1]
    decide
  · exact (c6_translate_request_headers ("example.com".toList)
      [("Cookie".toList, "a=b".toList)]).2 ("Cookie".toList, "a=b".toList)
      (by decide)

/-! ## Claim C5 -/

theorem utf8EncodeChar_ascii {c : Char} (h : c.toNat < 128) :
    utf8EncodeChar c = [c.toNat] := by
  rw [utf8EncodeChar]
  simp [h]

theorem utf8DecodeIgnore_cons_ascii {b : Nat} {l : PyBytes} (h : b < 128) :
    utf8DecodeIgnore (b :: l) = Char.ofNat b :: utf8DecodeIgnore l := by
  show utf8DecodeIgnoreF (l.length + 1) (b :: l) =
    Char.ofNat b :: utf8DecodeIgnoreF l.length l
  simp only [utf8DecodeIgnoreF]
  rw [if_pos h]

/-- Decoding inverts encoding on ASCII text (the decoder's one-byte
branch). -/
theorem utf8DecodeIgnore_encode_ascii :
    ∀ {s : PyStr}, (∀ c ∈ s, c.toNat < 128) →
      utf8DecodeIgnore (utf8Encode s) = s := by
  intro s
  induction s with
  | nil => intro _; rfl
  | cons c cs ih =>
    intro h
    have hc := h c (List.mem_cons_self _ _)
    have henc : utf8Encode (c :: cs) = c.toNat :: utf8Encode cs := by
      show utf8EncodeChar c ++ utf8Encode cs = _
      rw [utf8EncodeChar_ascii hc]
      rfl
    rw [henc, utf8DecodeIgnore_cons_ascii hc, Char.ofNat_toNat,
        ih (fun x hx => h x (List.mem_cons_of_mem _ hx))]

/-- C5 counterexample: the invalid byte `0xFF` is silently dropped by the
`errors='ignore'` decode, so the chunk `b"\xff"` rewrites to the empty
chunk instead of passing through unchanged — bytes are dropped. -/
theorem c5_counterexample_invalid_bytes_dropped :
    translate_chunk ("example.com".toList) ("proxy.app".toList) [255] = [] ∧
    ([] : PyBytes) ≠ [255] := by
  refine ⟨by decide, by decide⟩

/-- C5 (amended): per-chunk rewriting decodes with the `ignore` error
policy — undecodable bytes are silently dropped, never causing a failure
that would return the original chunk — applies the absolute substitution
(`https?://target`, case-insensitive, replaced by `https://proxy`) and then
the protocol-relative one (`//target` to `//proxy`), and re-encodes.  For
an ASCII chunk this is exactly substitution on the decoded text; with
target `example.com` and proxy `proxy.app`, the chunk
`<a href="https://example.com/x">` yields output containing
`https://proxy.app/x` and no longer containing `example.com`. -/
theorem c5_amended_chunk_rewrite :
    (∀ (origin proxy s : PyStr), (∀ c ∈ s, c.toNat < 128) →
       translate_chunk origin proxy (utf8Encode s) =
         utf8Encode (subRelative origin proxy (subAbsolute origin proxy s))) ∧
    translate_chunk ("example.com".toList) ("proxy.app".toList)
        (utf8Encode ("<a href=\"https://example.com/x\">".toList)) =
      utf8Encode ("<a href=\"https://proxy.app/x\">".toList) ∧
    hasSubstr ("https://proxy.app/x".toList)
        (utf8DecodeIgnore (translate_chunk ("example.com".toList)
          ("proxy.app".toList)
          (utf8Encode ("<a href=\"https://example.com/x\">".toList)))) = true ∧
    hasSubstr ("example.com".toList)
        (utf8DecodeIgnore (translate_chunk ("example.com".toList)
          ("proxy.app".toList)
          (utf8Encode ("<a href=\"https://example.com/x\">".toList)))) = false := by
  refine ⟨?_, by decide, by decide, by decide⟩
  intro origin proxy s h
  rw [translate_chunk, utf8DecodeIgnore_encode_ascii h]

/-- Witness for the amended C5 on a concrete ASCII chunk with both an
absolute and a protocol-relative occurrence. -/
theorem c5_amended_witness :
    translate_chunk ("example.com".toList) ("proxy.app".toList)
        (utf8Encode ("see //EXAMPLE.com/y or http://example.com/z".toList)) =
      utf8Encode (subRelative ("example.com".toList) ("proxy.app".toList)
        (subAbsolute ("example.com".toList) ("proxy.app".toList)
          ("see //EXAMPLE.com/y or http://example.com/z".toList))) :=
  c5_amended_chunk_rewrite.1 ("example.com".toList) ("proxy.app".toList)
    ("see //EXAMPLE.com/y or http://example.com/z".toList) (by decide)

/-! ## Claims C1 and C9: structure of `rewrite_cookies` -/

theorem rewrite_preserves_shape {t p : PyStr} {d d2 : Cookie}
    (h : rewrite_cookie_domain t p d = some d2) :
    d2.name = d.name ∧ d2.value = d.value := by
  rcases hs : should_rewrite_domain t (dictGet d.attrs "domain".toList)
    with _ | b
  · rw [rewrite_cookie_domain, hs] at h
    exact Option.noConfusion h
  · rw [rewrite_cookie_domain, hs] at h
    cases b
    · have := Option.some.inj h
      rw [← this]
      exact ⟨rfl, rfl⟩
    · have := Option.some.inj h
      rw [← this]
      exact ⟨rfl, rfl⟩

theorem processOne_append (t p : PyStr) (acc : List PyStr) (cs : PyStr) :
    processOne t p acc cs = (processOne t p [] cs).map (fun r => acc ++ r) := by
  rcases hp : parse_cookie_string cs with _ | d
  · simp [processOne, hp]
  · rcases hr : rewrite_cookie_domain t p d with _ | d2
    · simp [processOne, hp, hr]
    · by_cases hs : cookie_to_string d2 = [] <;>
        simp [processOne, hp, hr, hs]

theorem foldlM_processOne_append (t p : PyStr) :
    ∀ (pieces : List PyStr) (acc : List PyStr),
      pieces.foldlM (processOne t p) acc =
        (pieces.foldlM (processOne t p) []).map (fun r => acc ++ r) := by
  intro pieces
  induction pieces with
  | nil => intro acc; simp
  | cons c cs ih =>
    intro acc
    rw [List.foldlM_cons, List.foldlM_cons, processOne_append t p acc c]
    rcases h1 : processOne t p [] c with _ | a
    · rfl
    · show cs.foldlM (processOne t p) (acc ++ a) =
        (cs.foldlM (processOne t p) a).map (fun r => acc ++ r)
      rw [ih (acc ++ a), ih a]
      rcases h2 : cs.foldlM (processOne t p) [] with _ | r
      · simp
      · simp [List.append_assoc]

theorem headers_foldlM_append (t p : PyStr) :
    ∀ (hs : List PyStr) (a : List PyStr),
      hs.foldlM (fun acc hh => (split_cookies hh).foldlM (processOne t p) acc) a =
        (hs.foldlM
          (fun acc hh => (split_cookies hh).foldlM (processOne t p) acc) []).map
          (fun r => a ++ r) := by
  intro hs
  induction hs with
  | nil => intro a; simp
  | cons hh rest ih =>
    intro a
    rw [List.foldlM_cons, List.foldlM_cons,
        foldlM_processOne_append t p (split_cookies hh) a]
    rcases h1 : (split_cookies hh).foldlM (processOne t p) [] with _ | b
    · rfl
    · show rest.foldlM
          (fun acc hh => (split_cookies hh).foldlM (processOne t p) acc) (a ++ b) =
        (rest.foldlM
          (fun acc hh => (split_cookies hh).foldlM (processOne t p) acc) b).map
          (fun r => a ++ r)
      rw [ih (a ++ b), ih b]
      rcases h2 : rest.foldlM
          (fun acc hh => (split_cookies hh).foldlM (processOne t p) acc) []
          with _ | r
      · simp
      · simp [List.append_assoc]

theorem rewrite_cookies_cons (t p : PyStr) (h : PyStr) (hs : List PyStr) :
    rewrite_cookies t p (h :: hs) =
      ((split_cookies h).foldlM (processOne t p) []) >>= fun a =>
        (rewrite_cookies t p hs).map (fun r => a ++ r) := by
  rw [rewrite_cookies, rewrite_cookies, List.foldlM_cons]
  rcases h1 : (split_cookies h).foldlM (processOne t p) [] with _ | a
  · rfl
  · show hs.foldlM
        (fun acc hh => (split_cookies hh).foldlM (processOne t p) acc) a =
      (hs.foldlM
        (fun acc hh => (split_cookies hh).foldlM (processOne t p) acc) []).map
        (fun r => a ++ r)
    exact headers_foldlM_append t p hs a

/-- C1 counterexample: one raw header value with no `=` yields an empty
output list (0 of 1), and one header value with an unquoted comma before a
`name=` token yields two outputs (2 of 1) — cardinality is not preserved.
-/
theorem c1_counterexample_cardinality_not_preserved :
    rewrite_cookies ("example.com".toList) ("proxy.app".toList)
        ["foo".toList] = some [] ∧
    ([] : List PyStr).length ≠ ["foo".toList].length ∧
    rewrite_cookies ("example.com".toList) ("proxy.app".toList)
        ["a=1, b=2".toList] = some ["a=1".toList, "b=2".toList] ∧
    ["a=1".toList, "b=2".toList].length ≠ ["a=1, b=2".toList].length := by
  refine ⟨by decide, by decide, by decide, by decide⟩

/-- C1 (amended): for every sequence of N Set-Cookie header values, each of
which splits as a single cookie string that parses successfully and whose
domain rewrite does not raise, `rewrite_cookies` returns exactly N
rewritten values, in the same order as the input (the i-th output is the
serialisation of the i-th parsed-and-rewritten input). -/
theorem c1_amended_cardinality_for_wellformed (t p : PyStr)
    (headers : List PyStr)
    (hw : ∀ hd ∈ headers, ∃ c d d2, split_cookies hd = [c] ∧
          parse_cookie_string c = some d ∧
          rewrite_cookie_domain t p d = some d2) :
    ∃ out, rewrite_cookies t p headers = some out ∧
      out.length = headers.length ∧
      List.Forall₂ (fun hd s => ∃ c d d2, split_cookies hd = [c] ∧
        parse_cookie_string c = some d ∧
        rewrite_cookie_domain t p d = some d2 ∧
        s = cookie_to_string d2) headers out := by
  induction headers with
  | nil => exact ⟨[], rfl, rfl, List.Forall₂.nil⟩
  | cons hd hs ih =>
    obtain ⟨c, d, d2, hsplit, hparse, hrew⟩ := hw hd (List.mem_cons_self _ _)
    have hper : (split_cookies hd).foldlM (processOne t p) [] =
        some [cookie_to_string d2] := by
      rw [hsplit]
      simp [processOne, hparse, hrew, cookie_to_string_ne_nil d2]
    obtain ⟨out, hout, hlen, hfa⟩ :=
      ih (fun x hx => hw x (List.mem_cons_of_mem _ hx))
    refine ⟨cookie_to_string d2 :: out, ?_, by simp [hlen], ?_⟩
    · rw [rewrite_cookies_cons, hper, hout]
      rfl
    · exact List.Forall₂.cons ⟨c, d, d2, hsplit, hparse, hrew, rfl⟩ hfa

/-- Witness for the amended C1 on two concrete well-formed header values. -/
theorem c1_amended_witness :
    ∃ out, rewrite_cookies ("example.com".toList) ("proxy.app".toList)
        ["sess=abc; Domain=example.com".toList, "user=1; Path=/".toList] =
        some out ∧
      out.length = ["sess=abc; Domain=example.com".toList,
                    "user=1; Path=/".toList].length ∧
      List.Forall₂ (fun hd s => ∃ c d d2, split_cookies hd = [c] ∧
        parse_cookie_string c = some d ∧
        rewrite_cookie_domain ("example.com".toList) ("proxy.app".toList) d =
          some d2 ∧
        s = cookie_to_string d2)
        ["sess=abc; Domain=example.com".toList, "user=1; Path=/".toList]
        out := by
  refine c1_amended_cardinality_for_wellformed ("example.com".toList)
    ("proxy.app".toList)
    ["sess=abc; Domain=example.com".toList, "user=1; Path=/".toList] ?_
  intro hd hmem
  rcases List.mem_cons.mp hmem with h0 | hmem2
  · subst h0
    refine ⟨"sess=abc; Domain=example.com".toList,
      ⟨"sess".toList, "abc".toList,
       [("domain".toList, .str ("example.com".toList))]⟩,
      ⟨"sess".toList, "abc".toList,
       [("domain".toList, .str ("proxy.app".toList))]⟩, ?_, ?_, ?_⟩ <;> decide
  · rcases List.mem_cons.mp hmem2 with h0 | hmem3
    · subst h0
      refine ⟨"user=1; Path=/".toList,
        ⟨"user".toList, "1".toList, [("path".toList, .str ("/".toList))]⟩,
        ⟨"user".toList, "1".toList, [("path".toList, .str ("/".toList))]⟩,
        ?_, ?_, ?_⟩ <;> decide
    · exact absurd hmem3 (List.not_mem_nil hd)

/-- Membership invariant of the inner loop body. -/
theorem processOne_mem_inv {t p : PyStr} {acc acc2 : List PyStr} {cs : PyStr}
    (h : processOne t p acc cs = some acc2) :
    ∀ s ∈ acc2, s ∈ acc ∨ SerializedWF s := by
  intro s hs
  rcases hp : parse_cookie_string cs with _ | d
  · rw [show processOne t p acc cs = some acc from by simp [processOne, hp]] at h
    obtain rfl : acc = acc2 := Option.some.inj h
    exact Or.inl hs
  · rcases hr : rewrite_cookie_domain t p d with _ | d2
    · rw [show processOne t p acc cs = none from by simp [processOne, hp, hr]] at h
      exact Option.noConfusion h
    · by_cases h0 : cookie_to_string d2 = []
      · rw [show processOne t p acc cs = some acc from by
          simp [processOne, hp, hr, h0]] at h
        obtain rfl : acc = acc2 := Option.some.inj h
        exact Or.inl hs
      · rw [show processOne t p acc cs = some (acc ++ [cookie_to_string d2]) from by
          simp [processOne, hp, hr, h0]] at h
        obtain rfl : acc ++ [cookie_to_string d2] = acc2 := Option.some.inj h
        rcases List.mem_append.mp hs with hm | hm
        · exact Or.inl hm
        · rw [List.mem_singleton.mp hm]
          obtain ⟨⟨hn1, _, _⟩, ⟨hv1, _⟩, _⟩ := parse_wf hp
          obtain ⟨he1, he2⟩ := rewrite_preserves_shape hr
          exact Or.inr ⟨d2, he1 ▸ hn1, he2 ▸ hv1, rfl⟩

theorem foldlM_processOne_inv {t p : PyStr} :
    ∀ {pieces : List PyStr} {acc acc2 : List PyStr},
      pieces.foldlM (processOne t p) acc = some acc2 →
      ∀ s ∈ acc2, s ∈ acc ∨ SerializedWF s := by
  intro pieces
  induction pieces with
  | nil =>
    intro acc acc2 h s hs
    rw [List.foldlM_nil] at h
    obtain rfl : acc = acc2 := Option.some.inj h
    exact Or.inl hs
  | cons c cs ih =>
    intro acc acc2 h s hs
    rw [List.foldlM_cons] at h
    rcases h1 : processOne t p acc c with _ | a
    · rw [h1] at h
      exact Option.noConfusion h
    · rw [h1] at h
      have h2 : cs.foldlM (processOne t p) a = some acc2 := h
      rcases ih h2 s hs with hm | hm
      · exact processOne_mem_inv h1 s hm
      · exact Or.inr hm

theorem rewrite_cookies_mem_inv {t p : PyStr} {headers out : List PyStr}
    (h : rewrite_cookies t p headers = some out) :
    ∀ s ∈ out, SerializedWF s := by
  suffices haux : ∀ (hs : List PyStr) (acc acc2 : List PyStr),
      hs.foldlM (fun a hh => (split_cookies hh).foldlM (processOne t p) a) acc =
        some acc2 → ∀ s ∈ acc2, s ∈ acc ∨ SerializedWF s by
    intro s hs
    rcases haux headers [] out h s hs with hm | hm
    · exact absurd hm (List.not_mem_nil s)
    · exact hm
  intro hs
  induction hs with
  | nil =>
    intro acc acc2 h0 s hs0
    rw [List.foldlM_nil] at h0
    obtain rfl : acc = acc2 := Option.some.inj h0
    exact Or.inl hs0
  | cons hh rest ih =>
    intro acc acc2 h0 s hs0
    rw [List.foldlM_cons] at h0
    rcases h1 : (split_cookies hh).foldlM (processOne t p) acc with _ | a
    · rw [h1] at h0
      exact Option.noConfusion h0
    · rw [h1] at h0
      have h2 : rest.foldlM
          (fun a hh => (split_cookies hh).foldlM (processOne t p) a) a =
          some acc2 := h0
      rcases ih a acc2 h2 s hs0 with hm | hm
      · exact foldlM_processOne_inv h1 s hm
      · exact Or.inr hm

/-- The tail of a serialisation is empty or starts with `;`. -/
theorem mkTail_shape (segs : List (PyStr × Option PyStr)) :
    mkTail segs = [] ∨ ∃ t0, mkTail segs = ';' :: t0 := by
  cases segs with
  | nil => exact Or.inl rfl
  | cons sg rest =>
    rcases sg with ⟨l, _ | v0⟩
    · exact Or.inr ⟨' ' :: l ++ mkTail rest, by simp [mkTail, renderSeg]⟩
    · exact Or.inr ⟨' ' :: (l ++ '=' :: v0) ++ mkTail rest,
        by simp [mkTail, renderSeg]⟩

/-- The first `;`-piece of a well-formed serialisation is `name=value`. -/
theorem serialize_first_piece {d2 : Cookie} (hn : ';' ∉ d2.name)
    (hv : ';' ∉ d2.value) :
    firstPiece (cookie_to_string d2) = d2.name ++ '=' :: d2.value := by
  have hns : ';' ∉ d2.name ++ '=' :: d2.value := by
    intro hm
    rcases List.mem_append.mp hm with hm1 | hm1
    · exact hn hm1
    · rcases List.mem_cons.mp hm1 with hm2 | hm2
      · exact absurd hm2 (by decide)
      · exact hv hm2
  rw [cookie_to_string_eq_render]
  rcases mkTail_shape (attrSegsOf d2) with h0 | ⟨t0, h0⟩
  · rw [h0, List.append_nil, firstPiece, pySplit_no_sep hns]
    rfl
  · rw [h0, firstPiece, pySplit_append_sep hns t0]
    rfl

theorem serialize_parse_isSome {d2 : Cookie} (hn : ';' ∉ d2.name)
    (hv : ';' ∉ d2.value) :
    (parse_cookie_string (cookie_to_string d2)).isSome := by
  have h1 : '=' ∈ pyStrip (firstPiece (cookie_to_string d2)) := by
    rw [serialize_first_piece hn hv]
    exact mem_pyStrip_of_mem (by decide) (by simp)
  rcases hd : parse_cookie_string (cookie_to_string d2) with _ | x
  · exact absurd h1 (parse_eq_none.mp hd)
  · rfl

theorem serialize_has_eq (d2 : Cookie) : '=' ∈ cookie_to_string d2 := by
  rw [cookie_to_string_eq_render]
  simp

/-- C9: every element of a successful `rewrite_cookies` output is
non-empty, contains `=`, and re-parses to a non-null cookie; malformed
fragments never surface as empty or `=`-free entries. -/
theorem c9_outputs_parse_again (t p : PyStr) (headers out : List PyStr)
    (h : rewrite_cookies t p headers = some out) :
    ∀ s ∈ out, s ≠ [] ∧ '=' ∈ s ∧ (parse_cookie_string s).isSome := by
  intro s hs
  obtain ⟨d2, hn, hv, rfl⟩ := rewrite_cookies_mem_inv h s hs
  exact ⟨cookie_to_string_ne_nil d2, serialize_has_eq d2,
    serialize_parse_isSome hn hv⟩

/-- Witness for C9 at a concrete rewrite. -/
theorem c9_witness :
    "a=b".toList ≠ [] ∧ '=' ∈ "a=b".toList ∧
      (parse_cookie_string ("a=b".toList)).isSome :=
  c9_outputs_parse_again ("example.com".toList) ("proxy.app".toList)
    ["a=b".toList] ["a=b".toList] (by decide) ("a=b".toList) (by simp)

/-! ## Claim C4 -/

/-- C4: for a `Location` header (any name casing), translation keeps a
relative value unchanged, keeps an absolute value pointing at a foreign
host unchanged, and for an absolute value whose authority equals
`origin_host` case-insensitively replaces the authority with `proxy_host`
while re-assembling the parsed scheme, path, query and fragment unchanged;
a value whose parse raises is also kept unchanged.  The ASCII hypotheses
pin the inputs on which the embedded `urlparse` agrees exactly with the
library (non-ASCII case mapping and netloc normalisation aside). -/
theorem c4_location_translation (origin proxy : PyStr) (name value : PyStr)
    (hname : pyLower name = "location".toList)
    (_hvalue : ∀ c ∈ value, c.toNat < 128)
    (_horigin : ∀ c ∈ origin, c.toNat < 128) :
    (pyUrlparse value = none →
      translate_header_one origin proxy (name, value) = some [(name, value)]) ∧
    (∀ u : UrlParts, pyUrlparse value = some u → u.netloc = [] →
      translate_header_one origin proxy (name, value) = some [(name, value)]) ∧
    (∀ u : UrlParts, pyUrlparse value = some u → u.netloc ≠ [] →
      pyLower u.netloc = pyLower origin →
      translate_header_one origin proxy (name, value) =
        some [("Location".toList,
               pyUrlunparse ⟨u.scheme, proxy, u.path, u.query, u.fragment⟩)]) ∧
    (∀ u : UrlParts, pyUrlparse value = some u →
      pyLower u.netloc ≠ pyLower origin →
      translate_header_one origin proxy (name, value) = some [(name, value)]) := by
  have hl : pyLower (name, value).1 = "location".toList := hname
  have hsc : ¬ pyLower (name, value).1 = "set-cookie".toList := by
    rw [hl]
    decide
  have hmain : translate_header_one origin proxy (name, value) =
      some [translate_location origin proxy (name, value)] := by
    rw [translate_header_one, if_neg hsc, if_pos hl]
  refine ⟨?_, ?_, ?_, ?_⟩
  · intro hp
    rw [hmain]
    simp [translate_location, hp]
  · intro u hp hnl
    rw [hmain]
    simp [translate_location, hp, hnl]
  · intro u hp hnl heq
    rw [hmain]
    simp [translate_location, hp, hnl, heq]
  · intro u hp hne
    by_cases hnl : u.netloc = []
    · rw [hmain]
      simp [translate_location, hp, hnl]
    · rw [hmain]
      simp [translate_location, hp, hnl, hne]

/-- Witness for C4: the host of `https://example.com/next` is replaced
giving `https://proxy.app/next`, and `/relative` passes unchanged. -/
theorem c4_witness :
    translate_header_one ("example.com".toList) ("proxy.app".toList)
        ("Location".toList, "https://example.com/next".toList) =
      some [("Location".toList, "https://proxy.app/next".toList)] ∧
    translate_header_one ("example.com".toList) ("proxy.app".toList)
        ("Location".toList, "/relative".toList) =
      some [("Location".toList, "/relative".toList)] := by
  constructor
  · have h := (c4_location_translation ("example.com".toList)
      ("proxy.app".toList) ("Location".toList)
      ("https://example.com/next".toList) (by decide) (by decide)
      (by decide)).2.2.1
      ⟨"https".toList, "example.com".toList, "/next".toList, [], []⟩
      (by decide) (by decide) (by decide)
    rw [h]
    decide
  · exact (c4_location_translation ("example.com".toList)
      ("proxy.app".toList) ("Location".toList) ("/relative".toList)
      (by decide) (by decide) (by decide)).2.1
      ⟨[], [], "/relative".toList, [], []⟩ (by decide) (by decide)

/-! ## Claim C8: re-parsing a serialised cookie -/

theorem dictGet_mem {a : Attrs} {k : PyStr} {v : AttrVal}
    (h : dictGet a k = some v) : (k, v) ∈ a := by
  rw [dictGet] at h
  rcases hf : a.find? (fun p => p.1 == k) with _ | x
  · rw [hf] at h
    exact Option.noConfusion h
  · rw [hf] at h
    have hx := List.find?_some hf
    have hmem := List.mem_of_find?_eq_some hf
    have h1 : x.1 = k := by simpa using hx
    have h2 : x.2 = v := Option.some.inj h
    rcases x with ⟨x1, x2⟩
    rw [← h1, ← h2]
    exact hmem

theorem valuedPart_mem {attrs : Attrs} {label key : PyStr}
    {sg : PyStr × Option PyStr} (h : sg ∈ valuedPart attrs label key) :
    ∃ w, dictGet attrs key = some w ∧ sg = (label, some w.render) := by
  rcases hd : dictGet attrs key with _ | w
  · rw [valuedPart, hd] at h
    exact absurd h (List.not_mem_nil sg)
  · rw [valuedPart, hd] at h
    exact ⟨w, rfl, List.mem_singleton.mp h⟩

theorem flagPart_mem {attrs : Attrs} {label key : PyStr}
    {sg : PyStr × Option PyStr} (h : sg ∈ flagPart attrs label key) :
    ∃ w, dictGet attrs key = some w ∧ w.truthy = true ∧ sg = (label, none) := by
  rcases hd : dictGet attrs key with _ | w
  · rw [flagPart, hd] at h
    exact absurd h (List.not_mem_nil sg)
  · simp only [flagPart, hd] at h
    by_cases ht : w.truthy = true
    · rw [if_pos ht] at h
      exact ⟨w, rfl, ht, List.mem_singleton.mp h⟩
    · rw [if_neg ht] at h
      exact absurd h (List.not_mem_nil sg)

theorem render_wf {w : AttrVal} (h : WFval w) :
    ';' ∉ w.render ∧ pyStrip w.render = w.render := by
  rcases w with v | _
  · exact h
  · exact ⟨by decide, by decide⟩

/-- Every segment of a well-formed cookie is well-formed. -/
theorem attrSegsOf_wf {c : Cookie} (ha : ∀ x ∈ c.attrs, WFval x.2) :
    ∀ sg ∈ attrSegsOf c, SegWF sg := by
  intro sg hsg
  have hval : ∀ (label key : PyStr), sg ∈ valuedPart c.attrs label key →
      (';' ∉ label ∧ '=' ∉ label ∧ pyStrip label = label ∧ label ≠ []) →
      SegWF sg := by
    intro label key hm hlab
    obtain ⟨w, hw, rfl⟩ := valuedPart_mem hm
    have hwf : WFval w := ha (key, w) (dictGet_mem hw)
    refine ⟨hlab, ?_⟩
    intro v hv
    rw [show v = w.render from (Option.some.inj hv).symm]
    exact render_wf hwf
  have hflag : ∀ (label key : PyStr), sg ∈ flagPart c.attrs label key →
      (';' ∉ label ∧ '=' ∉ label ∧ pyStrip label = label ∧ label ≠ []) →
      SegWF sg := by
    intro label key hm hlab
    obtain ⟨w, _, _, rfl⟩ := flagPart_mem hm
    exact ⟨hlab, fun v hv => Option.noConfusion hv⟩
  rw [attrSegsOf] at hsg
  simp only [List.mem_append] at hsg
  rcases hsg with ((((((h | h) | h) | h) | h) | h) | h)
  · exact hval _ _ h (by decide)
  · exact hval _ _ h (by decide)
  · exact hval _ _ h (by decide)
  · exact hval _ _ h (by decide)
  · exact hflag _ _ h (by decide)
  · exact hflag _ _ h (by decide)
  · exact hval _ _ h (by decide)

theorem renderSeg_eq_segBody (sg : PyStr × Option PyStr) :
    renderSeg sg = ';' :: segBody sg := by
  rcases sg with ⟨l, _ | v⟩ <;> rfl

theorem segBody_no_semi {sg : PyStr × Option PyStr} (h : SegWF sg) :
    ';' ∉ segBody sg := by
  rcases sg with ⟨l, _ | v⟩
  · intro hm
    rcases List.mem_cons.mp hm with h0 | h0
    · exact absurd h0 (by decide)
    · exact h.1.1 h0
  · intro hm
    rcases List.mem_cons.mp hm with h0 | h0
    · exact absurd h0 (by decide)
    · rcases List.mem_append.mp h0 with h1 | h1
      · exact h.1.1 h1
      · rcases List.mem_cons.mp h1 with h2 | h2
        · exact absurd h2 (by decide)
        · exact (h.2 v rfl).1 h2

/-- Splitting a serialisation on `;`: the head piece followed by the
segment bodies. -/
theorem pySplit_append_mkTail :
    ∀ (segs : List (PyStr × Option PyStr)) (a : PyStr), ';' ∉ a →
      (∀ sg ∈ segs, ';' ∉ segBody sg) →
      pySplit ';' (a ++ mkTail segs) = a :: segs.map segBody := by
  intro segs
  induction segs with
  | nil =>
    intro a ha _
    rw [show mkTail [] = [] from rfl, List.append_nil, pySplit_no_sep ha]
    rfl
  | cons sg rest ih =>
    intro a ha hsegs
    have hbody : mkTail (sg :: rest) = ';' :: (segBody sg ++ mkTail rest) := by
      rw [show mkTail (sg :: rest) = renderSeg sg ++ mkTail rest from by
            simp [mkTail],
          renderSeg_eq_segBody]
      rfl
    rw [hbody, pySplit_append_sep ha (segBody sg ++ mkTail rest)]
    rw [show segBody sg ++ mkTail rest = segBody sg ++ mkTail rest from rfl]
    rw [ih (segBody sg) (hsegs sg (List.mem_cons_self _ _))
        (fun x hx => hsegs x (List.mem_cons_of_mem _ hx))]
    rfl

theorem head_not_space_of_strip_fix {a : PyStr} (h : pyStrip a = a) :
    ∀ x, a.head? = some x → isPySpace x = false := by
  intro x hx
  refine @pyStrip_head?_not a x ?_
  rw [h]
  exact hx

theorem getLast_not_space_of_strip_fix {a : PyStr} (h : pyStrip a = a) :
    ∀ x, a.getLast? = some x → isPySpace x = false := by
  intro x hx
  refine @pyStrip_getLast?_not a x ?_
  rw [h]
  exact hx

/-- Stripping fixes `a ++ "=" ++ b` when `a` has no leading space and `b`
is stripped. -/
theorem pyStrip_mid_eq {a b : PyStr}
    (h1 : ∀ x, a.head? = some x → isPySpace x = false)
    (h2 : pyStrip b = b) :
    pyStrip (a ++ '=' :: b) = a ++ '=' :: b := by
  apply pyStrip_eq_self
  · intro x hx
    cases a with
    | nil =>
      rw [List.nil_append, List.head?_cons] at hx
      rw [← Option.some.inj hx]
      decide
    | cons y ys =>
      rw [List.cons_append, List.head?_cons] at hx
      rw [← Option.some.inj hx]
      exact h1 y rfl
  · intro x hx
    rw [List.getLast?_append_of_ne_nil a (by simp)] at hx
    cases b with
    | nil =>
      rw [show ('=' :: ([] : PyStr)).getLast? = some '=' from rfl] at hx
      rw [← Option.some.inj hx]
      decide
    | cons z zs =>
      rw [show ('=' :: z :: zs : PyStr) = ['='] ++ z :: zs from rfl,
          List.getLast?_append_of_ne_nil ['='] (by simp)] at hx
      exact getLast_not_space_of_strip_fix h2 x hx

/-- Re-parsing one segment body inserts exactly the expected entry. -/
theorem parseAttrStep_segBody {sg : PyStr × Option PyStr} (h : SegWF sg)
    (acc : Attrs) :
    parseAttrStep acc (segBody sg) =
      dictInsert acc (segEntry sg).1 (segEntry sg).2 := by
  rcases sg with ⟨l, _ | v⟩
  · have hstrip : pyStrip (' ' :: l) = l := by
      rw [pyStrip_cons_space (by decide)]
      exact h.1.2.2.1
    simp only [parseAttrStep, segBody]
    rw [hstrip, if_neg (fun hc => h.1.2.1 (pyContains_iff.mp hc))]
    rfl
  · have hv := h.2 v rfl
    have hstrip : pyStrip (' ' :: (l ++ '=' :: v)) = l ++ '=' :: v := by
      rw [pyStrip_cons_space (by decide)]
      exact pyStrip_mid_eq (head_not_space_of_strip_fix h.1.2.2.1) hv.2
    have hc : pyContains (l ++ '=' :: v) '=' = true :=
      pyContains_iff.mpr (by simp)
    have hsf : splitFirst '=' (l ++ '=' :: v) = (l, v) :=
      splitFirst_append h.1.2.1 v
    simp only [parseAttrStep, segBody]
    rw [hstrip, if_pos hc, hsf]
    show dictInsert acc (pyLower l) (.str (pyStrip v)) = _
    rw [hv.2]
    rfl

theorem foldl_parseAttrStep_segBodies :
    ∀ (segs : List (PyStr × Option PyStr)) (acc : Attrs),
      (∀ sg ∈ segs, SegWF sg) →
      (segs.map segBody).foldl parseAttrStep acc =
        segs.foldl
          (fun acc sg => dictInsert acc (segEntry sg).1 (segEntry sg).2) acc := by
  intro segs
  induction segs with
  | nil => intro acc _; rfl
  | cons sg rest ih =>
    intro acc hwf
    rw [List.map_cons, List.foldl_cons, List.foldl_cons,
        parseAttrStep_segBody (hwf sg (List.mem_cons_self _ _)) acc]
    exact ih _ (fun x hx => hwf x (List.mem_cons_of_mem _ hx))

theorem dictInsert_fresh :
    ∀ {a : Attrs} {k : PyStr} {v : AttrVal}, (∀ e ∈ a, e.1 ≠ k) →
      dictInsert a k v = a ++ [(k, v)] := by
  intro a
  induction a with
  | nil => intro k v _; rfl
  | cons e rest ih =>
    intro k v h
    rcases e with ⟨k0, v0⟩
    rw [show dictInsert ((k0, v0) :: rest) k v =
        (k0, v0) :: dictInsert rest k v from by
      simp [dictInsert, h (k0, v0) (List.mem_cons_self _ _)]]
    rw [ih (fun e2 h2 => h e2 (List.mem_cons_of_mem _ h2))]
    rfl

theorem foldl_dictInsert_fresh :
    ∀ (es : List (PyStr × AttrVal)) (acc : Attrs),
      (es.map Prod.fst).Nodup →
      (∀ e ∈ es, ∀ e2 ∈ acc, e2.1 ≠ e.1) →
      es.foldl (fun acc e => dictInsert acc e.1 e.2) acc = acc ++ es := by
  intro es
  induction es with
  | nil =>
    intro acc _ _
    rw [List.foldl_nil, List.append_nil]
  | cons e rest ih =>
    intro acc hnd hfresh
    have hnd2 : (rest.map Prod.fst).Nodup := by
      rw [List.map_cons, List.nodup_cons] at hnd
      exact hnd.2
    have hkey : e.1 ∉ rest.map Prod.fst := by
      rw [List.map_cons, List.nodup_cons] at hnd
      exact hnd.1
    rw [List.foldl_cons,
        dictInsert_fresh (fun e2 h2 => hfresh e (List.mem_cons_self _ _) e2 h2)]
    rw [ih (acc ++ [e]) hnd2 ?_]
    · rw [List.append_assoc]
      rfl
    · intro e2 h2 e3 h3
      rcases List.mem_append.mp h3 with h4 | h4
      · exact hfresh e2 (List.mem_cons_of_mem _ h2) e3 h4
      · rw [List.mem_singleton.mp h4]
        intro hEq
        exact hkey (hEq ▸ List.mem_map_of_mem Prod.fst h2)

theorem valuedPart_entry_key {attrs : Attrs} {label key : PyStr} :
    ∀ e ∈ (valuedPart attrs label key).map segEntry, e.1 = pyLower label := by
  intro e he
  rw [List.mem_map] at he
  obtain ⟨sg, hsg, rfl⟩ := he
  obtain ⟨w, _, rfl⟩ := valuedPart_mem hsg
  rfl

theorem flagPart_entry_key {attrs : Attrs} {label key : PyStr} :
    ∀ e ∈ (flagPart attrs label key).map segEntry, e.1 = pyLower label := by
  intro e he
  rw [List.mem_map] at he
  obtain ⟨sg, hsg, rfl⟩ := he
  obtain ⟨w, _, _, rfl⟩ := flagPart_mem hsg
  rfl

theorem dictGet_none_of_keys {es : Attrs} {k : PyStr}
    (h : ∀ e ∈ es, e.1 ≠ k) : dictGet es k = none := by
  rw [dictGet, List.find?_eq_none.mpr]
  · rfl
  · intro x hx
    simp [h x hx]

theorem dictGet_append (a b : Attrs) (k : PyStr) :
    dictGet (a ++ b) k =
      match dictGet a k with
      | some v => some v
      | none => dictGet b k := by
  rw [dictGet, dictGet, List.find?_append]
  rcases hf : a.find? (fun p => p.1 == k) with _ | x
  · simp [hf, dictGet]
  · simp [hf]

theorem dictGet_append_left_none {a b : Attrs} {k : PyStr}
    (h : dictGet a k = none) : dictGet (a ++ b) k = dictGet b k := by
  rw [dictGet_append, h]

theorem dictGet_append_right_none {a b : Attrs} {k : PyStr}
    (h : dictGet b k = none) : dictGet (a ++ b) k = dictGet a k := by
  rw [dictGet_append]
  rcases hd : dictGet a k with _ | v
  · exact h
  · rfl

theorem dictGet_Q_valued_ne {attrs : Attrs} {label key k : PyStr}
    (h : pyLower label ≠ k) :
    dictGet ((valuedPart attrs label key).map segEntry) k = none :=
  dictGet_none_of_keys (fun e he => (valuedPart_entry_key e he) ▸ h)

theorem dictGet_Q_flag_ne {attrs : Attrs} {label key k : PyStr}
    (h : pyLower label ≠ k) :
    dictGet ((flagPart attrs label key).map segEntry) k = none :=
  dictGet_none_of_keys (fun e he => (flagPart_entry_key e he) ▸ h)

theorem dictGet_Q_valued_eq (attrs : Attrs) (label key : PyStr) :
    dictGet ((valuedPart attrs label key).map segEntry) (pyLower label) =
      (dictGet attrs key).map (fun w => AttrVal.str w.render) := by
  rcases hd : dictGet attrs key with _ | w
  · rw [show valuedPart attrs label key = [] from by rw [valuedPart, hd]]
    rfl
  · rw [show valuedPart attrs label key = [(label, some w.render)] from by
      rw [valuedPart, hd]]
    rw [show ([(label, some w.render)] :
        List (PyStr × Option PyStr)).map segEntry =
        [(pyLower label, AttrVal.str w.render)] from rfl]
    simp [dictGet]

theorem dictGet_Q_flag_eq (attrs : Attrs) (label key : PyStr) :
    dictGet ((flagPart attrs label key).map segEntry) (pyLower label) =
      (match dictGet attrs key with
       | some w => if w.truthy then some AttrVal.flag else none
       | none => none) := by
  rcases hd : dictGet attrs key with _ | w
  · rw [show flagPart attrs label key = [] from by rw [flagPart, hd]]
    rfl
  · by_cases ht : w.truthy = true
    · rw [show flagPart attrs label key = [(label, none)] from by
        simp [flagPart, hd, ht]]
      rw [show ([(label, none)] : List (PyStr × Option PyStr)).map segEntry =
          [(pyLower label, AttrVal.flag)] from rfl]
      simp [dictGet, ht]
    · rw [show flagPart attrs label key = [] from by simp [flagPart, hd, ht]]
      simp [dictGet, ht]

theorem valuedPart_of_map {attrs3 attrs0 : Attrs} {key : PyStr}
    (hG : dictGet attrs3 key =
      (dictGet attrs0 key).map (fun w => AttrVal.str w.render))
    (label : PyStr) :
    valuedPart attrs3 label key = valuedPart attrs0 label key := by
  rw [valuedPart, valuedPart, hG]
  rcases hd : dictGet attrs0 key with _ | w <;> simp [AttrVal.render]

theorem flagPart_of_map {attrs3 attrs0 : Attrs} {key : PyStr}
    (hG : dictGet attrs3 key =
      (match dictGet attrs0 key with
       | some w => if w.truthy then some AttrVal.flag else none
       | none => none))
    (label : PyStr) :
    flagPart attrs3 label key = flagPart attrs0 label key := by
  rw [flagPart, flagPart, hG]
  rcases hd : dictGet attrs0 key with _ | w
  · rfl
  · by_cases ht : w.truthy = true
    · simp only [if_pos ht]
      rfl
    · simp only [if_neg ht]

theorem dictGet_append_none {a b : Attrs} {k : PyStr}
    (h1 : dictGet a k = none) (h2 : dictGet b k = none) :
    dictGet (a ++ b) k = none := by
  rw [dictGet_append, h1]
  exact h2

theorem part_keys_sublist_valued (attrs : Attrs) (label key : PyStr) :
    List.Sublist (((valuedPart attrs label key).map segEntry).map Prod.fst)
      [pyLower label] := by
  rcases hd : dictGet attrs key with _ | w
  · rw [show valuedPart attrs label key = [] from by rw [valuedPart, hd]]
    exact List.nil_sublist _
  · rw [show valuedPart attrs label key = [(label, some w.render)] from by
      rw [valuedPart, hd]]
    exact List.Sublist.refl _

theorem part_keys_sublist_flag (attrs : Attrs) (label key : PyStr) :
    List.Sublist (((flagPart attrs label key).map segEntry).map Prod.fst)
      [pyLower label] := by
  rcases hd : dictGet attrs key with _ | w
  · rw [show flagPart attrs label key = [] from by rw [flagPart, hd]]
    exact List.nil_sublist _
  · by_cases ht : w.truthy = true
    · rw [show flagPart attrs label key = [(label, none)] from by
        simp [flagPart, hd, ht]]
      exact List.Sublist.refl _
    · rw [show flagPart attrs label key = [] from by simp [flagPart, hd, ht]]
      exact List.nil_sublist _

theorem attrSegs_entry_keys_nodup (c : Cookie) :
    (((attrSegsOf c).map segEntry).map Prod.fst).Nodup := by
  have hsub : List.Sublist (((attrSegsOf c).map segEntry).map Prod.fst)
      ([pyLower ("Path".toList)] ++ [pyLower ("Domain".toList)] ++
       [pyLower ("Expires".toList)] ++ [pyLower ("Max-Age".toList)] ++
       [pyLower ("Secure".toList)] ++ [pyLower ("HttpOnly".toList)] ++
       [pyLower ("SameSite".toList)]) := by
    rw [attrSegsOf]
    simp only [List.map_append]
    exact ((((((part_keys_sublist_valued c.attrs _ _).append
      (part_keys_sublist_valued c.attrs _ _)).append
      (part_keys_sublist_valued c.attrs _ _)).append
      (part_keys_sublist_valued c.attrs _ _)).append
      (part_keys_sublist_flag c.attrs _ _)).append
      (part_keys_sublist_flag c.attrs _ _)).append
      (part_keys_sublist_valued c.attrs _ _)
  exact hsub.nodup (by decide)

theorem parseAttrs_attrSegs (c : Cookie) (ha : ∀ x ∈ c.attrs, WFval x.2) :
    parseAttrs ((attrSegsOf c).map segBody) = (attrSegsOf c).map segEntry := by
  rw [parseAttrs, foldl_parseAttrStep_segBodies (attrSegsOf c) []
      (attrSegsOf_wf ha)]
  have h2 := foldl_dictInsert_fresh ((attrSegsOf c).map segEntry) []
    (attrSegs_entry_keys_nodup c)
    (fun e _ e2 h2 => absurd h2 (List.not_mem_nil e2))
  rw [List.foldl_map] at h2
  rw [List.nil_append] at h2
  exact h2

theorem dictGet_entries_path (c : Cookie) :
    dictGet ((attrSegsOf c).map segEntry) ("path".toList) =
      (dictGet c.attrs ("path".toList)).map (fun w => AttrVal.str w.render) := by
  rw [attrSegsOf]
  simp only [List.map_append]
  rw [dictGet_append_right_none (dictGet_Q_valued_ne (by decide)),
      dictGet_append_right_none (dictGet_Q_flag_ne (by decide)),
      dictGet_append_right_none (dictGet_Q_flag_ne (by decide)),
      dictGet_append_right_none (dictGet_Q_valued_ne (by decide)),
      dictGet_append_right_none (dictGet_Q_valued_ne (by decide)),
      dictGet_append_right_none (dictGet_Q_valued_ne (by decide))]
  rw [show ("path".toList : PyStr) = pyLower ("Path".toList) from by decide]
  exact dictGet_Q_valued_eq c.attrs ("Path".toList) (pyLower ("Path".toList))

theorem dictGet_entries_domain (c : Cookie) :
    dictGet ((attrSegsOf c).map segEntry) ("domain".toList) =
      (dictGet c.attrs ("domain".toList)).map
        (fun w => AttrVal.str w.render) := by
  rw [attrSegsOf]
  simp only [List.map_append]
  rw [dictGet_append_right_none (dictGet_Q_valued_ne (by decide)),
      dictGet_append_right_none (dictGet_Q_flag_ne (by decide)),
      dictGet_append_right_none (dictGet_Q_flag_ne (by decide)),
      dictGet_append_right_none (dictGet_Q_valued_ne (by decide)),
      dictGet_append_right_none (dictGet_Q_valued_ne (by decide)),
      dictGet_append_left_none (dictGet_Q_valued_ne (by decide))]
  rw [show ("domain".toList : PyStr) = pyLower ("Domain".toList) from by decide]
  exact dictGet_Q_valued_eq c.attrs ("Domain".toList) (pyLower ("Domain".toList))

theorem dictGet_entries_expires (c : Cookie) :
    dictGet ((attrSegsOf c).map segEntry) ("expires".toList) =
      (dictGet c.attrs ("expires".toList)).map
        (fun w => AttrVal.str w.render) := by
  rw [attrSegsOf]
  simp only [List.map_append]
  rw [dictGet_append_right_none (dictGet_Q_valued_ne (by decide)),
      dictGet_append_right_none (dictGet_Q_flag_ne (by decide)),
      dictGet_append_right_none (dictGet_Q_flag_ne (by decide)),
      dictGet_append_right_none (dictGet_Q_valued_ne (by decide)),
      dictGet_append_left_none (dictGet_append_none
        (dictGet_Q_valued_ne (by decide)) (dictGet_Q_valued_ne (by decide)))]
  rw [show ("expires".toList : PyStr) = pyLower ("Expires".toList) from by decide]
  exact dictGet_Q_valued_eq c.attrs ("Expires".toList)
    (pyLower ("Expires".toList))

theorem dictGet_entries_maxage (c : Cookie) :
    dictGet ((attrSegsOf c).map segEntry) ("max-age".toList) =
      (dictGet c.attrs ("max-age".toList)).map
        (fun w => AttrVal.str w.render) := by
  rw [attrSegsOf]
  simp only [List.map_append]
  rw [dictGet_append_right_none (dictGet_Q_valued_ne (by decide)),
      dictGet_append_right_none (dictGet_Q_flag_ne (by decide)),
      dictGet_append_right_none (dictGet_Q_flag_ne (by decide)),
      dictGet_append_left_none (dictGet_append_none (dictGet_append_none
        (dictGet_Q_valued_ne (by decide)) (dictGet_Q_valued_ne (by decide)))
        (dictGet_Q_valued_ne (by decide)))]
  rw [show ("max-age".toList : PyStr) = pyLower ("Max-Age".toList) from by decide]
  exact dictGet_Q_valued_eq c.attrs ("Max-Age".toList)
    (pyLower ("Max-Age".toList))

theorem dictGet_entries_secure (c : Cookie) :
    dictGet ((attrSegsOf c).map segEntry) ("secure".toList) =
      (match dictGet c.attrs ("secure".toList) with
       | some w => if w.truthy then some AttrVal.flag else none
       | none => none) := by
  rw [attrSegsOf]
  simp only [List.map_append]
  rw [dictGet_append_right_none (dictGet_Q_valued_ne (by decide)),
      dictGet_append_right_none (dictGet_Q_flag_ne (by decide)),
      dictGet_append_left_none (dictGet_append_none (dictGet_append_none
        (dictGet_append_none (dictGet_Q_valued_ne (by decide))
          (dictGet_Q_valued_ne (by decide)))
        (dictGet_Q_valued_ne (by decide)))
        (dictGet_Q_valued_ne (by decide)))]
  rw [show ("secure".toList : PyStr) = pyLower ("Secure".toList) from by decide]
  exact dictGet_Q_flag_eq c.attrs ("Secure".toList) (pyLower ("Secure".toList))

theorem dictGet_entries_httponly (c : Cookie) :
    dictGet ((attrSegsOf c).map segEntry) ("httponly".toList) =
      (match dictGet c.attrs ("httponly".toList) with
       | some w => if w.truthy then some AttrVal.flag else none
       | none => none) := by
  rw [attrSegsOf]
  simp only [List.map_append]
  rw [dictGet_append_right_none (dictGet_Q_valued_ne (by decide)),
      dictGet_append_left_none (dictGet_append_none (dictGet_append_none
        (dictGet_append_none (dictGet_append_none
          (dictGet_Q_valued_ne (by decide)) (dictGet_Q_valued_ne (by decide)))
          (dictGet_Q_valued_ne (by decide)))
        (dictGet_Q_valued_ne (by decide)))
        (dictGet_Q_flag_ne (by decide)))]
  rw [show ("httponly".toList : PyStr) = pyLower ("HttpOnly".toList) from by
    decide]
  exact dictGet_Q_flag_eq c.attrs ("HttpOnly".toList)
    (pyLower ("HttpOnly".toList))

theorem dictGet_entries_samesite (c : Cookie) :
    dictGet ((attrSegsOf c).map segEntry) ("samesite".toList) =
      (dictGet c.attrs ("samesite".toList)).map
        (fun w => AttrVal.str w.render) := by
  rw [attrSegsOf]
  simp only [List.map_append]
  rw [dictGet_append_left_none (dictGet_append_none (dictGet_append_none
      (dictGet_append_none (dictGet_append_none (dictGet_append_none
        (dictGet_Q_valued_ne (by decide)) (dictGet_Q_valued_ne (by decide)))
        (dictGet_Q_valued_ne (by decide)))
      (dictGet_Q_valued_ne (by decide)))
      (dictGet_Q_flag_ne (by decide)))
      (dictGet_Q_flag_ne (by decide)))]
  rw [show ("samesite".toList : PyStr) = pyLower ("SameSite".toList) from by
    decide]
  exact dictGet_Q_valued_eq c.attrs ("SameSite".toList)
    (pyLower ("SameSite".toList))

/-- Re-parsing the serialised segments reproduces the same segments. -/
theorem attrSegsOf_reparse (c : Cookie) :
    attrSegsOf ⟨c.name, c.value, (attrSegsOf c).map segEntry⟩ =
      attrSegsOf c := by
  conv_lhs => rw [attrSegsOf]
  rw [show (⟨c.name, c.value, (attrSegsOf c).map segEntry⟩ : Cookie).attrs =
      (attrSegsOf c).map segEntry from rfl]
  rw [valuedPart_of_map (dictGet_entries_path c),
      valuedPart_of_map (dictGet_entries_domain c),
      valuedPart_of_map (dictGet_entries_expires c),
      valuedPart_of_map (dictGet_entries_maxage c),
      flagPart_of_map (dictGet_entries_secure c),
      flagPart_of_map (dictGet_entries_httponly c),
      valuedPart_of_map (dictGet_entries_samesite c)]
  rfl

/-- Serialising, re-parsing and serialising again is the identity on the
serialisation, for any cookie whose components are parser-shaped. -/
theorem serialize_roundtrip (d2 : Cookie)
    (hn : ';' ∉ d2.name) (hne : '=' ∉ d2.name)
    (hns : pyStrip d2.name = d2.name)
    (hv : ';' ∉ d2.value) (hvs : pyStrip d2.value = d2.value)
    (ha : ∀ x ∈ d2.attrs, WFval x.2) :
    ∃ d3, parse_cookie_string (cookie_to_string d2) = some d3 ∧
      cookie_to_string d3 = cookie_to_string d2 := by
  have hwfsegs := attrSegsOf_wf ha
  have hbodies : ∀ sg ∈ attrSegsOf d2, ';' ∉ segBody sg :=
    fun sg h => segBody_no_semi (hwfsegs sg h)
  have hnv_nosemi : ';' ∉ d2.name ++ '=' :: d2.value := by
    intro hm
    rcases List.mem_append.mp hm with hm1 | hm1
    · exact hn hm1
    · rcases List.mem_cons.mp hm1 with hm2 | hm2
      · exact absurd hm2 (by decide)
      · exact hv hm2
  have hsplit : pySplit ';' (cookie_to_string d2) =
      (d2.name ++ '=' :: d2.value) :: (attrSegsOf d2).map segBody := by
    rw [cookie_to_string_eq_render]
    exact pySplit_append_mkTail (attrSegsOf d2) _ hnv_nosemi hbodies
  have hfirst : firstPiece (cookie_to_string d2) =
      d2.name ++ '=' :: d2.value := by
    rw [firstPiece, hsplit]
    rfl
  have hstrip_nv : pyStrip (d2.name ++ '=' :: d2.value) =
      d2.name ++ '=' :: d2.value :=
    pyStrip_mid_eq (head_not_space_of_strip_fix hns) hvs
  have heq_mem : '=' ∈ pyStrip (firstPiece (cookie_to_string d2)) := by
    rw [hfirst, hstrip_nv]
    simp
  refine ⟨_, parse_eq_some.mpr ⟨heq_mem, rfl⟩, ?_⟩
  have hsf : splitFirst '=' (pyStrip (firstPiece (cookie_to_string d2))) =
      (d2.name, d2.value) := by
    rw [hfirst, hstrip_nv]
    exact splitFirst_append hne _
  have htail : (pySplit ';' (cookie_to_string d2)).tail =
      (attrSegsOf d2).map segBody := by
    rw [hsplit]
    rfl
  rw [hsf, htail]
  rw [show ((d2.name, d2.value).1 : PyStr) = d2.name from rfl,
      show ((d2.name, d2.value).2 : PyStr) = d2.value from rfl]
  rw [hns, hvs, parseAttrs_attrSegs d2 ha]
  rw [cookie_to_string_eq_render, cookie_to_string_eq_render d2]
  rw [show (⟨d2.name, d2.value, (attrSegsOf d2).map segEntry⟩ : Cookie).name =
      d2.name from rfl,
      show (⟨d2.name, d2.value, (attrSegsOf d2).map segEntry⟩ : Cookie).value =
      d2.value from rfl]
  rw [attrSegsOf_reparse d2]

/-- C8: for every cookie string produced by the pipeline parse →
rewrite_domain → serialize (with a `;`-free, stripped proxy host, and a
rewrite that does not raise), parsing the produced string again and
serialising the parse result yields the identical string. -/
theorem c8_serialize_parse_fixpoint (raw target proxy : PyStr) (d d2 : Cookie)
    (hp : parse_cookie_string raw = some d)
    (hr : rewrite_cookie_domain target proxy d = some d2)
    (hproxy1 : ';' ∉ proxy) (hproxy2 : pyStrip proxy = proxy) :
    ∃ d3, parse_cookie_string (cookie_to_string d2) = some d3 ∧
      cookie_to_string d3 = cookie_to_string d2 := by
  obtain ⟨⟨hn, hne, hns⟩, ⟨hv, hvs⟩, ha⟩ := parse_wf hp
  obtain ⟨hname, hvalue⟩ := rewrite_preserves_shape hr
  have ha2 : ∀ x ∈ d2.attrs, WFval x.2 := by
    rcases hs : should_rewrite_domain target (dictGet d.attrs "domain".toList)
      with _ | b
    · rw [rewrite_cookie_domain, hs] at hr
      exact Option.noConfusion hr
    · rw [rewrite_cookie_domain, hs] at hr
      cases b
      · rw [← Option.some.inj hr]
        exact ha
      · rw [← Option.some.inj hr]
        intro x hx
        rcases mem_dictInsert hx with hm | hm
        · exact ha x hm
        · rw [hm]
          exact ⟨hproxy1, hproxy2⟩
  exact serialize_roundtrip d2 (hname ▸ hn) (hname ▸ hne) (hname ▸ hns)
    (hvalue ▸ hv) (hvalue ▸ hvs) ha2

/-- Witness for C8 at a concrete pipeline run. -/
theorem c8_witness :
    ∃ d3, parse_cookie_string (cookie_to_string
        ⟨"sess".toList, "abc".toList,
         [("domain".toList, AttrVal.str ("proxy.app".toList)),
          ("path".toList, AttrVal.str ("/".toList)),
          ("secure".toList, AttrVal.flag)]⟩) = some d3 ∧
      cookie_to_string d3 = cookie_to_string
        ⟨"sess".toList, "abc".toList,
         [("domain".toList, AttrVal.str ("proxy.app".toList)),
          ("path".toList, AttrVal.str ("/".toList)),
          ("secure".toList, AttrVal.flag)]⟩ :=
  c8_serialize_parse_fixpoint
    ("sess=abc; Domain=example.com; Path=/; Secure".toList)
    ("example.com".toList) ("proxy.app".toList)
    ⟨"sess".toList, "abc".toList,
     [("domain".toList, AttrVal.str ("example.com".toList)),
      ("path".toList, AttrVal.str ("/".toList)),
      ("secure".toList, AttrVal.flag)]⟩
    ⟨"sess".toList, "abc".toList,
     [("domain".toList, AttrVal.str ("proxy.app".toList)),
      ("path".toList, AttrVal.str ("/".toList)),
      ("secure".toList, AttrVal.flag)]⟩
    (by decide) (by decide) (by decide) (by decide)

end HostRewriteProxy
